import Mathlib

/-!
Verification of the braille GIF terminal renderer (`src/main.rs`).

The Rust source is shallowly embedded below.  Conventions used throughout:

* machine integers (`u8`, `u32`, `usize`) are modelled as `ℕ`; a narrowing
  cast such as `as u8` is modelled by an explicit `% 256`;
* the `f32` arithmetic of `compute_scaled_dims` is modelled bit-accurately
  over `ℚ` (`roundF32`: round to nearest, ties to even, onto the 24-bit
  significand grid; exact on the normal range reached here), because the
  `u32 → f32` conversions there are lossy for large inputs; the rasterizer's
  luminance comparison is kept as the exact `ℚ` formula, which agrees with
  the `f32` evaluation on every 8-bit RGB triple;
* fallible operations return `Option`; a Rust panic is modelled as `none`;
* wall-clock instants and durations are modelled as `ℕ` (milliseconds);
* the external collaborators that are out of scope for the specification
  (the GIF decoder, the Lanczos3 resampler, the terminal backend) appear
  as explicit inputs: a list of already-decoded raw frames, a `resize`
  function parameter, and a per-iteration `(polled event, now)` input list.
-/

/-- One RGBA pixel, 8 bits per channel (`Rgba([r, g, b, a])` in the source). -/
structure Rgba where
  r : ℕ
  g : ℕ
  b : ℕ
  a : ℕ
deriving DecidableEq, Repr

/-- An RGBA raster (`image::RgbaImage`): dimensions plus a pixel lookup.
`get_pixel` is only ever consulted at in-bounds coordinates. -/
structure RgbaImage where
  width : ℕ
  height : ℕ
  get_pixel : ℕ → ℕ → Rgba

/-- All channels of every in-bounds pixel fit in a byte (automatic for the
Rust `u8` channels; our `ℕ` model states it explicitly). -/
def RgbaImage.Bytes (img : RgbaImage) : Prop :=
  ∀ x y, x < img.width → y < img.height →
    (img.get_pixel x y).r ≤ 255 ∧ (img.get_pixel x y).g ≤ 255 ∧
    (img.get_pixel x y).b ≤ 255 ∧ (img.get_pixel x y).a ≤ 255

/-- The `match (sub_col, sub_row)` table of `rgba_to_braille_colored`
(src/main.rs lines 182-192): left column top-to-bottom to bits 0-3,
right column top-to-bottom to bits 4-7. -/
def bit_index (sub_col sub_row : ℕ) : ℕ :=
  match sub_col, sub_row with
  | 0, 0 => 0
  | 0, 1 => 1
  | 0, 2 => 2
  | 0, 3 => 3
  | 1, 0 => 4
  | 1, 1 => 5
  | 1, 2 => 6
  | 1, 3 => 7
  | _, _ => 0

/-- BT.709 luminance `0.2126*r + 0.7152*g + 0.0722*b` (src/main.rs lines
195-197), with the `f32` arithmetic modelled exactly over `ℚ`. -/
def luminance (p : Rgba) : ℚ :=
  0.2126 * (p.r : ℚ) + 0.7152 * (p.g : ℚ) + 0.0722 * (p.b : ℚ)

/-- The per-cell accumulator of `rgba_to_braille_colored`: the mutable
locals `r_sum, g_sum, b_sum, count : u32` and `dots : u8`. -/
structure CellAcc where
  r_sum : ℕ
  g_sum : ℕ
  b_sum : ℕ
  count : ℕ
  dots : ℕ
deriving DecidableEq, Repr

/-- One iteration of the inner double loop of `rgba_to_braille_colored`
(src/main.rs lines 173-208) at sub-position `(sub_col, sub_row)`. -/
def cellStep (img : RgbaImage) (col row : ℕ) (acc : CellAcc)
    (sub_col sub_row : ℕ) : CellAcc :=
  let px_x := col * 2 + sub_col
  let px_y := row * 4 + sub_row
  if px_x < img.width ∧ px_y < img.height then
    let p := img.get_pixel px_x px_y
    let dots' :=
      if p.a > 50 ∧ luminance p > 20 then
        acc.dots ||| (1 <<< bit_index sub_col sub_row)
      else
        acc.dots
    ⟨acc.r_sum + p.r, acc.g_sum + p.g, acc.b_sum + p.b, acc.count + 1, dots'⟩
  else
    acc

/-- The eight `(sub_col, sub_row)` pairs in the order visited by the source's
`for sub_row in 0..4 { for sub_col in 0..2 { ... } }` loops. -/
def subPositions : List (ℕ × ℕ) :=
  [(0, 0), (1, 0), (0, 1), (1, 1), (0, 2), (1, 2), (0, 3), (1, 3)]

/-- Model of `char::from_u32`: `some` exactly on valid Unicode scalar values. -/
def char_from_u32 (n : ℕ) : Option ℕ :=
  if n < 0xD800 ∨ (0xE000 ≤ n ∧ n < 0x110000) then some n else none

/-- One rendered terminal cell: the braille glyph's codepoint, its 8-bit dot
mask, and the averaged foreground colour of the `Span` built at src/main.rs
lines 210-226. -/
structure Cell where
  glyph : ℕ
  dots : ℕ
  color : ℕ × ℕ × ℕ
deriving DecidableEq, Repr

/-- The body of the `for col in 0..cell_cols` loop of
`rgba_to_braille_colored` (src/main.rs lines 166-227): accumulate over the
2×4 block, then build the glyph (`char::from_u32(0x2800 + dots).unwrap_or(' ')`,
with `' '` = codepoint 32) and the average colour (each `as u8` cast is a
`% 256`). -/
def computeCell (img : RgbaImage) (col row : ℕ) : Cell :=
  let acc := subPositions.foldl
    (fun a p => cellStep img col row a p.1 p.2) ⟨0, 0, 0, 0, 0⟩
  let glyph := (char_from_u32 (0x2800 + acc.dots)).getD 32
  let color :=
    if acc.count > 0 then
      ((acc.r_sum / acc.count) % 256, (acc.g_sum / acc.count) % 256,
        (acc.b_sum / acc.count) % 256)
    else
      (0, 0, 0)
  ⟨glyph, acc.dots, color⟩

/-- The rasterizer `rgba_to_braille_colored` (src/main.rs lines 153-234): the grid of
cells, `cell_rows = (height + 3) / 4` rows of `cell_cols = (width + 1) / 2`
cells each. -/
def rgba_to_braille_colored (img : RgbaImage) : List (List Cell) :=
  let cell_cols := (img.width + 1) / 2
  let cell_rows := (img.height + 3) / 4
  (List.range cell_rows).map fun row =>
    (List.range cell_cols).map fun col => computeCell img col row

/-- Round a rational to the nearest integer, ties to even — the IEEE-754
default rounding used by Rust for `u32 as f32` conversion and every `f32`
arithmetic operation. -/
def rne (m : ℚ) : ℤ :=
  if m - ⌊m⌋ < 1 / 2 then ⌊m⌋
  else if 1 / 2 < m - ⌊m⌋ then ⌊m⌋ + 1
  else if ⌊m⌋ % 2 = 0 then ⌊m⌋ else ⌊m⌋ + 1

/-- Round a positive rational to the nearest `f32`-representable value:
24-bit significand, round to nearest, ties to even.  The exponent is left
unbounded; every value reachable in `compute_scaled_dims` on positive
inputs lies in `[2^-32, 2^32]`, well inside the binary32 normal range,
where this coincides bit-for-bit with IEEE-754 `f32` (no overflow,
underflow, subnormal or NaN can occur there). -/
def roundF32 (x : ℚ) : ℚ :=
  if x ≤ 0 then 0
  else rne (x / 2 ^ (Int.log 2 x - 23)) * 2 ^ (Int.log 2 x - 23)

/-- The Rust `u32 as f32` conversion (round to nearest, ties to even). -/
def f32_of_u32 (n : ℕ) : ℚ := roundF32 n

/-- `f32` division: the correctly rounded exact quotient. -/
def f32_div (a b : ℚ) : ℚ := roundF32 (a / b)

/-- `f32` multiplication: the correctly rounded exact product. -/
def f32_mul (a b : ℚ) : ℚ := roundF32 (a * b)

/-- `f32::min` (exact on the non-NaN values that occur here). -/
def f32_min (a b : ℚ) : ℚ := min a b

/-- `f32::max` (exact on the non-NaN values that occur here). -/
def f32_max (a b : ℚ) : ℚ := max a b

/-- `f32::round`: round half away from zero to an integral value (always
exactly representable, so no re-rounding). -/
def f32_round (x : ℚ) : ℚ :=
  if 0 ≤ x then ((⌊x + 1 / 2⌋ : ℤ) : ℚ) else ((⌈x - 1 / 2⌉ : ℤ) : ℚ)

/-- The Rust `as u32` cast from `f32`: truncate toward zero, saturating to
`[0, u32::MAX]`. -/
def u32_of_f32 (x : ℚ) : ℕ :=
  if x ≤ 0 then 0 else min ⌊x⌋.toNat (2 ^ 32 - 1)

/-- The function `compute_scaled_dims` (src/main.rs lines 123-150), the
Dimension Fitter, with every `f32` step modelled bit-accurately: the four
`u32 as f32` conversions, the two divisions and the multiplication round
to nearest (ties to even), `min` is exact, `.round()` rounds half away
from zero, and `as u32` truncates with saturation. -/
def compute_scaled_dims (orig_w orig_h max_w max_h : ℕ) : ℕ × ℕ :=
  if max_w = 0 ∨ max_h = 0 ∨ orig_w = 0 ∨ orig_h = 0 then
    (0, 0)
  else
    let orig_w_f := f32_of_u32 orig_w
    let orig_h_f := f32_of_u32 orig_h
    let max_w_f := f32_of_u32 max_w
    let max_h_f := f32_of_u32 max_h
    let scale_w := f32_div max_w_f orig_w_f
    let scale_h := f32_div max_h_f orig_h_f
    let scale := f32_min scale_w scale_h
    let scale := f32_min scale 1
    let new_w := u32_of_f32 (f32_max (f32_round (f32_mul orig_w_f scale)) 1)
    let new_h := u32_of_f32 (f32_max (f32_round (f32_mul orig_h_f scale)) 1)
    (new_w, new_h)

/-- Sub-pixel `(x, y)` contributes a set dot bit: it is in bounds and passes
both thresholds of src/main.rs line 198 (`a > 50 && lum > 20.0`). -/
def lit (img : RgbaImage) (x y : ℕ) : Prop :=
  x < img.width ∧ y < img.height ∧
    (img.get_pixel x y).a > 50 ∧ luminance (img.get_pixel x y) > 20

instance litDecidable (img : RgbaImage) (x y : ℕ) : Decidable (lit img x y) := by
  unfold lit
  infer_instance

/-- The in-bounds pixels of block `(col, row)` among the sub-positions `ps`,
in visiting order. -/
def blockSamplesOf (img : RgbaImage) (col row : ℕ) (ps : List (ℕ × ℕ)) :
    List Rgba :=
  ps.filterMap fun p =>
    if col * 2 + p.1 < img.width ∧ row * 4 + p.2 < img.height then
      some (img.get_pixel (col * 2 + p.1) (row * 4 + p.2))
    else
      none

/-- The in-bounds pixels of the 2×4 block `(col, row)`. -/
def blockSamples (img : RgbaImage) (col row : ℕ) : List Rgba :=
  blockSamplesOf img col row subPositions

/-- A decoded GIF frame as handed over by the external decoder
(`frame.buffer()` in `load_and_convert_gif`): dimensions plus the raw byte
buffer. -/
structure RawFrame where
  width : ℕ
  height : ℕ
  data : List ℕ

/-- Model of `RgbaImage::from_raw(width, height, raw)` (src/main.rs line 94): `none`
exactly when the buffer length does not match `width * height * 4`;
otherwise the row-major RGBA raster over the buffer. -/
def RgbaImage.from_raw (w h : ℕ) (data : List ℕ) : Option RgbaImage :=
  if data.length = w * h * 4 then
    some ⟨w, h, fun x y =>
      ⟨data.getD ((y * w + x) * 4) 0, data.getD ((y * w + x) * 4 + 1) 0,
        data.getD ((y * w + x) * 4 + 2) 0, data.getD ((y * w + x) * 4 + 3) 0⟩⟩
  else
    none

/-- The Frame Store element (`struct BrailleFrame`): the braille/colour
lines of one frame. -/
structure BrailleFrame where
  lines : List (List Cell)

/-- The function `load_and_convert_gif` (src/main.rs lines 76-119) after the external
steps are made explicit: `frames_iter` is the decoder's already-collected
frame list, `(term_cols, term_rows)` the terminal size sampled once, and
`resize` the external Lanczos3 resampler (called as
`resize image new_width new_height`).  Frames whose raster cannot be
rebuilt (`from_raw` fails) are skipped with `continue`; degenerate fitted
dimensions substitute the all-zero (fully transparent) 1×1
`ImageBuffer::new(1, 1)`. -/
def load_and_convert_gif (resize : RgbaImage → ℕ → ℕ → RgbaImage)
    (term_cols term_rows : ℕ) (frames_iter : List RawFrame) :
    List BrailleFrame :=
  let max_braille_cols := term_cols - 2
  let max_braille_rows := term_rows - 2
  let max_width_px := max_braille_cols * 2
  let max_height_px := max_braille_rows * 4
  frames_iter.foldl
    (fun out_frames frame =>
      match RgbaImage.from_raw frame.width frame.height frame.data with
      | none => out_frames
      | some image =>
        let wh := compute_scaled_dims frame.width frame.height
          max_width_px max_height_px
        let resized :=
          if wh.1 > 0 ∧ wh.2 > 0 then resize image wh.1 wh.2
          else ⟨1, 1, fun _ _ => ⟨0, 0, 0, 0⟩⟩
        out_frames ++ [⟨rgba_to_braille_colored resized⟩])
    []

/-- The `frames.is_empty()` check of `main` (src/main.rs lines 44-47):
`some (exit code, stderr diagnostic)` when the store is empty, `none` when
`main` proceeds to the terminal setup and `run_app`. -/
def main_after_load (frames : List BrailleFrame) : Option (ℕ × String) :=
  if frames.isEmpty then
    some (1, "No frames found or failed to decode GIF.")
  else
    none

/-- The type `crossterm::event::KeyCode`, reduced to what `run_app` inspects. -/
inductive KeyCode where
  | char : Char → KeyCode
  | otherKey : KeyCode
deriving DecidableEq, Repr

/-- The type `crossterm::event::Event`: a key event or any other event kind. -/
inductive Event where
  | key : KeyCode → Event
  | nonKey : Event
deriving DecidableEq, Repr

/-- The constant `frame_delay = Duration::from_millis(96)` (src/main.rs line 239), in milliseconds. -/
def frame_delay : ℕ := 96

/-- The mutable loop state of `run_app`: `frame_index` and the `Instant`
`frame_start`, the latter as a millisecond timestamp. -/
structure PlaybackState where
  frame_index : ℕ
  frame_start : ℕ
deriving DecidableEq, Repr

/-- The `if let Event::Key(key) ... if key.code == KeyCode::Char('q')` test
(src/main.rs lines 259-260); `none` models `event::poll` timing out. -/
def isQuitEvent (ev : Option Event) : Bool :=
  match ev with
  | some (Event.key k) => decide (k = KeyCode.char 'q')
  | _ => false

/-- The frame-advance step of `run_app` (src/main.rs lines 267-270): if the
elapsed time since `frame_start` has reached `frame_delay`, advance the
index by one modulo the store length and reset the timer to `now`. -/
def playback_step (n : ℕ) (s : PlaybackState) (now : ℕ) : PlaybackState :=
  if frame_delay ≤ now - s.frame_start then
    ⟨(s.frame_index + 1) % n, now⟩
  else
    s

/-- Outcome of running `run_app` through a finite list of iteration inputs:
the indices drawn (one per completed `terminal.draw`), whether the loop
returned `Ok(())` via the quit key, and the final loop state. -/
structure RunResult where
  rendered : List ℕ
  quit : Bool
  final : PlaybackState
deriving DecidableEq, Repr

/-- The loop `run_app` (src/main.rs lines 237-272), driven by one
`(polled event, now)` input per loop iteration; the wall clock `now` is
read when the advance test at line 267 runs.  Each iteration first draws
`frames[frame_index]` — modelled as a panic (`none`) when the index is out
of bounds, which is also the only way the `% frames.len()` at line 268
could see a zero divisor — then handles the polled event, then the advance
step.  The quit key returns immediately, before any advance. -/
def run_app (frames : List BrailleFrame) (s : PlaybackState) :
    List (Option Event × ℕ) → Option RunResult
  | [] => some ⟨[], false, s⟩
  | (ev, now) :: rest =>
    if s.frame_index < frames.length then
      if isQuitEvent ev then
        some ⟨[s.frame_index], true, s⟩
      else
        match run_app frames (playback_step frames.length s now) rest with
        | none => none
        | some r => some ⟨s.frame_index :: r.rendered, r.quit, r.final⟩
    else
      none

/-- A list of `k` consecutive iteration inputs with no key pressed, each
timed exactly one `frame_delay` after the previous advance. -/
def quietInputs (start k : ℕ) : List (Option Event × ℕ) :=
  (List.range k).map fun i => ((none : Option Event), start + (i + 1) * frame_delay)

/-! ### Dimension Fitter lemmas: properties of the bit-accurate f32 model -/

theorem rne_ge (m : ℚ) : m - 1 / 2 ≤ (rne m : ℚ) := by
  unfold rne
  have h1 := Int.floor_le m
  have h2 := Int.lt_floor_add_one m
  split_ifs <;> push_cast <;> linarith

theorem rne_le (m : ℚ) : (rne m : ℚ) ≤ m + 1 / 2 := by
  unfold rne
  have h1 := Int.floor_le m
  have h2 := Int.lt_floor_add_one m
  split_ifs <;> push_cast <;> linarith

theorem floor_le_rne (m : ℚ) : ⌊m⌋ ≤ rne m := by
  unfold rne
  split_ifs <;> omega

theorem rne_le_floor_add_one (m : ℚ) : rne m ≤ ⌊m⌋ + 1 := by
  unfold rne
  split_ifs <;> omega

theorem rne_intCast (k : ℤ) : rne (k : ℚ) = k := by
  unfold rne
  rw [Int.floor_intCast, if_pos (by norm_num)]

theorem rne_mono {a b : ℚ} (h : a ≤ b) : rne a ≤ rne b := by
  have hf : ⌊a⌋ ≤ ⌊b⌋ := Int.floor_le_floor h
  rcases lt_or_eq_of_le hf with hlt | heq
  · have h1 := rne_le_floor_add_one a
    have h2 := floor_le_rne b
    omega
  · unfold rne
    rw [← heq]
    split_ifs <;> first | omega | linarith

theorem roundF32_zero : roundF32 0 = 0 := by
  unfold roundF32
  rw [if_pos le_rfl]

/-- The significand `x / 2^(log₂ x - 23)` of a positive rational lies in
`[2^23, 2^24)`. -/
theorem significand_bracket {x : ℚ} (hx : 0 < x) :
    (2 : ℚ) ^ (23 : ℤ) ≤ x / 2 ^ (Int.log 2 x - 23) ∧
      x / 2 ^ (Int.log 2 x - 23) < (2 : ℚ) ^ (24 : ℤ) := by
  have hU : (0 : ℚ) < 2 ^ (Int.log 2 x - 23) := zpow_pos (by norm_num) _
  have key23 : (2 : ℚ) ^ (23 : ℤ) * 2 ^ (Int.log 2 x - 23) =
      2 ^ (Int.log 2 x) := by
    rw [← zpow_add₀ (by norm_num : (2 : ℚ) ≠ 0)]
    congr 1
    omega
  have key24 : (2 : ℚ) ^ (24 : ℤ) * 2 ^ (Int.log 2 x - 23) =
      2 ^ (Int.log 2 x + 1) := by
    rw [← zpow_add₀ (by norm_num : (2 : ℚ) ≠ 0)]
    congr 1
    omega
  constructor
  · rw [le_div_iff₀ hU, key23]
    exact Int.zpow_log_le_self (by norm_num) hx
  · rw [div_lt_iff₀ hU, key24]
    exact Int.lt_zpow_succ_log_self (by norm_num) x

theorem significand_floor_ge {x : ℚ} (hx : 0 < x) :
    (2 ^ 23 : ℤ) ≤ ⌊x / 2 ^ (Int.log 2 x - 23)⌋ := by
  have h := (significand_bracket hx).1
  apply Int.le_floor.mpr
  calc ((2 ^ 23 : ℤ) : ℚ) = (2 : ℚ) ^ (23 : ℤ) := by norm_num
    _ ≤ _ := h

theorem significand_floor_lt {x : ℚ} (hx : 0 < x) :
    ⌊x / 2 ^ (Int.log 2 x - 23)⌋ < (2 ^ 24 : ℤ) := by
  have h := (significand_bracket hx).2
  apply Int.floor_lt.mpr
  calc x / 2 ^ (Int.log 2 x - 23) < (2 : ℚ) ^ (24 : ℤ) := h
    _ = ((2 ^ 24 : ℤ) : ℚ) := by norm_num

theorem roundF32_pos {x : ℚ} (hx : 0 < x) : 0 < roundF32 x := by
  unfold roundF32
  rw [if_neg (not_le.mpr hx)]
  have hn : (0 : ℤ) < rne (x / 2 ^ (Int.log 2 x - 23)) :=
    lt_of_lt_of_le (by positivity) (le_trans (significand_floor_ge hx)
      (floor_le_rne _))
  have hn' : (0 : ℚ) < (rne (x / 2 ^ (Int.log 2 x - 23)) : ℚ) := by
    exact_mod_cast hn
  exact mul_pos hn' (zpow_pos (by norm_num) _)

theorem roundF32_nonneg (x : ℚ) : 0 ≤ roundF32 x := by
  rcases le_or_lt x 0 with h | h
  · unfold roundF32
    rw [if_pos h]
  · exact le_of_lt (roundF32_pos h)

/-- Upper relative-error bound of one rounding: at most half an ulp, i.e.
a factor `1 + 2^-24`. -/
theorem roundF32_le_mul {x : ℚ} (hx : 0 < x) :
    roundF32 x ≤ x * (1 + 1 / 2 ^ 24) := by
  unfold roundF32
  rw [if_neg (not_le.mpr hx)]
  have hU : (0 : ℚ) < 2 ^ (Int.log 2 x - 23) := zpow_pos (by norm_num) _
  have hm := rne_le (x / 2 ^ (Int.log 2 x - 23))
  have hxU : x / 2 ^ (Int.log 2 x - 23) * 2 ^ (Int.log 2 x - 23) = x :=
    div_mul_cancel₀ x (ne_of_gt hU)
  have hUx : 2 ^ (Int.log 2 x - 23) ≤ x / 2 ^ 23 := by
    rw [le_div_iff₀ (by positivity)]
    calc (2 : ℚ) ^ (Int.log 2 x - 23) * 2 ^ 23
        = 2 ^ (Int.log 2 x - 23) * 2 ^ ((23 : ℕ) : ℤ) := by norm_num
      _ = 2 ^ (Int.log 2 x) := by
          rw [← zpow_add₀ (by norm_num : (2 : ℚ) ≠ 0)]
          congr 1
          omega
      _ ≤ x := Int.zpow_log_le_self (by norm_num) hx
  calc (rne (x / 2 ^ (Int.log 2 x - 23)) : ℚ) * 2 ^ (Int.log 2 x - 23)
      ≤ (x / 2 ^ (Int.log 2 x - 23) + 1 / 2) * 2 ^ (Int.log 2 x - 23) := by
        apply mul_le_mul_of_nonneg_right hm (le_of_lt hU)
    _ = x + 2 ^ (Int.log 2 x - 23) / 2 := by
        rw [add_mul, hxU]
        ring
    _ ≤ x + x / 2 ^ 23 / 2 := by
        have := hUx
        linarith
    _ = x * (1 + 1 / 2 ^ 24) := by ring

theorem two_pow_log_le_roundF32 {x : ℚ} (hx : 0 < x) :
    (2 : ℚ) ^ (Int.log 2 x) ≤ roundF32 x := by
  unfold roundF32
  rw [if_neg (not_le.mpr hx)]
  have hU : (0 : ℚ) < 2 ^ (Int.log 2 x - 23) := zpow_pos (by norm_num) _
  have hn : (2 ^ 23 : ℤ) ≤ rne (x / 2 ^ (Int.log 2 x - 23)) :=
    le_trans (significand_floor_ge hx) (floor_le_rne _)
  calc (2 : ℚ) ^ (Int.log 2 x)
      = (2 : ℚ) ^ (23 : ℤ) * 2 ^ (Int.log 2 x - 23) := by
        rw [← zpow_add₀ (by norm_num : (2 : ℚ) ≠ 0)]
        congr 1
        omega
    _ ≤ (rne (x / 2 ^ (Int.log 2 x - 23)) : ℚ) * 2 ^ (Int.log 2 x - 23) := by
        apply mul_le_mul_of_nonneg_right ?_ (le_of_lt hU)
        calc (2 : ℚ) ^ (23 : ℤ) = ((2 ^ 23 : ℤ) : ℚ) := by norm_num
          _ ≤ _ := by exact_mod_cast hn

theorem roundF32_le_two_pow_succ {x : ℚ} (hx : 0 < x) :
    roundF32 x ≤ (2 : ℚ) ^ (Int.log 2 x + 1) := by
  unfold roundF32
  rw [if_neg (not_le.mpr hx)]
  have hU : (0 : ℚ) < 2 ^ (Int.log 2 x - 23) := zpow_pos (by norm_num) _
  have hn : rne (x / 2 ^ (Int.log 2 x - 23)) ≤ (2 ^ 24 : ℤ) := by
    have := rne_le_floor_add_one (x / 2 ^ (Int.log 2 x - 23))
    have := significand_floor_lt hx
    omega
  calc (rne (x / 2 ^ (Int.log 2 x - 23)) : ℚ) * 2 ^ (Int.log 2 x - 23)
      ≤ (2 : ℚ) ^ (24 : ℤ) * 2 ^ (Int.log 2 x - 23) := by
        apply mul_le_mul_of_nonneg_right ?_ (le_of_lt hU)
        calc ((rne (x / 2 ^ (Int.log 2 x - 23)) : ℤ) : ℚ)
            ≤ ((2 ^ 24 : ℤ) : ℚ) := by exact_mod_cast hn
          _ = (2 : ℚ) ^ (24 : ℤ) := by norm_num
    _ = (2 : ℚ) ^ (Int.log 2 x + 1) := by
        rw [← zpow_add₀ (by norm_num : (2 : ℚ) ≠ 0)]
        congr 1
        omega

theorem roundF32_ge_one {x : ℚ} (hx : 1 ≤ x) : 1 ≤ roundF32 x := by
  have hx0 : (0 : ℚ) < x := lt_of_lt_of_le one_pos hx
  have hlog1 : Int.log 2 ((2 : ℚ) ^ (0 : ℤ)) = 0 :=
    Int.log_zpow (by norm_num) 0
  have he : (0 : ℤ) ≤ Int.log 2 x := by
    have h5 : Int.log 2 ((2 : ℚ) ^ (0 : ℤ)) ≤ Int.log 2 x :=
      Int.log_mono_right (show (0 : ℚ) < 2 ^ (0 : ℤ) by norm_num)
        (show (2 : ℚ) ^ (0 : ℤ) ≤ x by simpa using hx)
    rwa [hlog1] at h5
  calc (1 : ℚ) = 2 ^ (0 : ℤ) := by norm_num
    _ ≤ 2 ^ (Int.log 2 x) := zpow_le_zpow_right₀ (by norm_num) he
    _ ≤ roundF32 x := two_pow_log_le_roundF32 hx0

theorem roundF32_mono {a b : ℚ} (ha : 0 < a) (hab : a ≤ b) :
    roundF32 a ≤ roundF32 b := by
  have hb : 0 < b := lt_of_lt_of_le ha hab
  have hle : Int.log 2 a ≤ Int.log 2 b := Int.log_mono_right ha hab
  rcases lt_or_eq_of_le hle with hlt | heq
  · calc roundF32 a ≤ 2 ^ (Int.log 2 a + 1) := roundF32_le_two_pow_succ ha
      _ ≤ 2 ^ (Int.log 2 b) := zpow_le_zpow_right₀ (by norm_num) (by omega)
      _ ≤ roundF32 b := two_pow_log_le_roundF32 hb
  · unfold roundF32
    rw [if_neg (not_le.mpr ha), if_neg (not_le.mpr hb), ← heq]
    have hU : (0 : ℚ) < 2 ^ (Int.log 2 a - 23) := zpow_pos (by norm_num) _
    apply mul_le_mul_of_nonneg_right ?_ (le_of_lt hU)
    have : a / 2 ^ (Int.log 2 a - 23) ≤ b / 2 ^ (Int.log 2 a - 23) := by gcongr
    exact_mod_cast rne_mono this

theorem log2_eq_of_bracket {v : ℚ} {e : ℤ} (h1 : (2 : ℚ) ^ e ≤ v)
    (h2 : v < 2 ^ (e + 1)) : Int.log 2 v = e := by
  have hv : 0 < v := lt_of_lt_of_le (zpow_pos (by norm_num) e) h1
  apply le_antisymm
  · by_contra hc
    push_neg at hc
    have h3 : (2 : ℚ) ^ (e + 1) ≤ 2 ^ (Int.log 2 v) :=
      zpow_le_zpow_right₀ (by norm_num) hc
    have h4 : (2 : ℚ) ^ (Int.log 2 v) ≤ v := by
      exact_mod_cast Int.zpow_log_le_self (show (1 : ℕ) < 2 by norm_num) hv
    linarith
  · have h1' : ((2 : ℕ) : ℚ) ^ e ≤ v := by exact_mod_cast h1
    have h3 : Int.log 2 (((2 : ℕ) : ℚ) ^ e) ≤ Int.log 2 v :=
      Int.log_mono_right (zpow_pos (by norm_num) e) h1'
    rwa [Int.log_zpow (by norm_num)] at h3

theorem roundF32_eq_self {x : ℚ} (hx : 0 < x) (k : ℤ)
    (hk : x = (k : ℚ) * 2 ^ (Int.log 2 x - 23)) : roundF32 x = x := by
  unfold roundF32
  rw [if_neg (not_le.mpr hx)]
  have hU : (0 : ℚ) < 2 ^ (Int.log 2 x - 23) := zpow_pos (by norm_num) _
  have hm : x / 2 ^ (Int.log 2 x - 23) = (k : ℚ) := by
    rw [div_eq_iff (ne_of_gt hU)]
    exact hk
  rw [hm, rne_intCast]
  exact hk.symm

theorem roundF32_eval_self (x : ℚ) (e k : ℤ) (h1 : (2 : ℚ) ^ e ≤ x)
    (h2 : x < 2 ^ (e + 1)) (hk : x = (k : ℚ) * 2 ^ (e - 23)) :
    roundF32 x = x := by
  have hx : 0 < x := lt_of_lt_of_le (zpow_pos (by norm_num) e) h1
  apply roundF32_eq_self hx k
  rw [log2_eq_of_bracket h1 h2]
  exact hk

theorem roundF32_eval_up (x : ℚ) (e f : ℤ) (h1 : (2 : ℚ) ^ e ≤ x)
    (h2 : x < 2 ^ (e + 1)) (hf : ⌊x / 2 ^ (e - 23)⌋ = f)
    (hfr : 1 / 2 < x / 2 ^ (e - 23) - (f : ℚ)) :
    roundF32 x = ((f + 1 : ℤ) : ℚ) * 2 ^ (e - 23) := by
  have hx : 0 < x := lt_of_lt_of_le (zpow_pos (by norm_num) e) h1
  unfold roundF32
  rw [if_neg (not_le.mpr hx), log2_eq_of_bracket h1 h2]
  congr 2
  unfold rne
  rw [hf, if_neg (by linarith), if_pos hfr]

theorem roundF32_eval_tie_even (x : ℚ) (e f : ℤ) (h1 : (2 : ℚ) ^ e ≤ x)
    (h2 : x < 2 ^ (e + 1)) (hf : ⌊x / 2 ^ (e - 23)⌋ = f)
    (hfr : x / 2 ^ (e - 23) - (f : ℚ) = 1 / 2) (hpar : f % 2 = 0) :
    roundF32 x = (f : ℚ) * 2 ^ (e - 23) := by
  have hx : 0 < x := lt_of_lt_of_le (zpow_pos (by norm_num) e) h1
  unfold roundF32
  rw [if_neg (not_le.mpr hx), log2_eq_of_bracket h1 h2]
  congr 2
  unfold rne
  rw [hf, if_neg (by linarith), if_neg (by linarith), if_pos hpar]

theorem roundF32_idem {x : ℚ} (hx : 0 < x) :
    roundF32 (roundF32 x) = roundF32 x := by
  have hval : roundF32 x =
      (rne (x / 2 ^ (Int.log 2 x - 23)) : ℚ) * 2 ^ (Int.log 2 x - 23) := by
    unfold roundF32
    rw [if_neg (not_le.mpr hx)]
  have hU : (0 : ℚ) < 2 ^ (Int.log 2 x - 23) := zpow_pos (by norm_num) _
  have hnl : (2 ^ 23 : ℤ) ≤ rne (x / 2 ^ (Int.log 2 x - 23)) :=
    le_trans (significand_floor_ge hx) (floor_le_rne _)
  have hnu : rne (x / 2 ^ (Int.log 2 x - 23)) ≤ (2 ^ 24 : ℤ) := by
    have := rne_le_floor_add_one (x / 2 ^ (Int.log 2 x - 23))
    have := significand_floor_lt hx
    omega
  rcases lt_or_eq_of_le hnu with hlt | heq
  · rw [hval]
    apply roundF32_eval_self _ (Int.log 2 x) (rne (x / 2 ^ (Int.log 2 x - 23)))
    · calc (2 : ℚ) ^ (Int.log 2 x)
          = (2 : ℚ) ^ (23 : ℤ) * 2 ^ (Int.log 2 x - 23) := by
            rw [← zpow_add₀ (by norm_num : (2 : ℚ) ≠ 0)]
            congr 1
            omega
        _ ≤ _ := by
            apply mul_le_mul_of_nonneg_right ?_ (le_of_lt hU)
            calc (2 : ℚ) ^ (23 : ℤ) = ((2 ^ 23 : ℤ) : ℚ) := by norm_num
              _ ≤ _ := by exact_mod_cast hnl
    · calc (rne (x / 2 ^ (Int.log 2 x - 23)) : ℚ) * 2 ^ (Int.log 2 x - 23)
          < (2 : ℚ) ^ (24 : ℤ) * 2 ^ (Int.log 2 x - 23) := by
            apply mul_lt_mul_of_pos_right ?_ hU
            calc ((rne (x / 2 ^ (Int.log 2 x - 23)) : ℤ) : ℚ)
                < ((2 ^ 24 : ℤ) : ℚ) := by exact_mod_cast hlt
              _ = (2 : ℚ) ^ (24 : ℤ) := by norm_num
        _ = (2 : ℚ) ^ (Int.log 2 x + 1) := by
            rw [← zpow_add₀ (by norm_num : (2 : ℚ) ≠ 0)]
            congr 1
            omega
    · rfl
  · rw [hval, heq]
    have hv2 : ((2 ^ 24 : ℤ) : ℚ) * 2 ^ (Int.log 2 x - 23) =
        (2 : ℚ) ^ (Int.log 2 x + 1) := by
      calc ((2 ^ 24 : ℤ) : ℚ) * 2 ^ (Int.log 2 x - 23)
          = (2 : ℚ) ^ (24 : ℤ) * 2 ^ (Int.log 2 x - 23) := by norm_num
        _ = (2 : ℚ) ^ (Int.log 2 x + 1) := by
            rw [← zpow_add₀ (by norm_num : (2 : ℚ) ≠ 0)]
            congr 1
            omega
    rw [hv2]
    apply roundF32_eval_self _ (Int.log 2 x + 1) (2 ^ 23)
    · exact le_rfl
    · exact zpow_lt_zpow_right₀ (by norm_num) (by omega)
    · calc (2 : ℚ) ^ (Int.log 2 x + 1)
          = (2 : ℚ) ^ (23 : ℤ) * 2 ^ (Int.log 2 x + 1 - 23) := by
            rw [← zpow_add₀ (by norm_num : (2 : ℚ) ≠ 0)]
            congr 1
            omega
        _ = ((2 ^ 23 : ℤ) : ℚ) * 2 ^ (Int.log 2 x + 1 - 23) := by norm_num

theorem f32_of_u32_int (n : ℕ) :
    ∃ k : ℤ, f32_of_u32 n = (k : ℚ) ∧ 0 ≤ k := by
  rcases Nat.eq_zero_or_pos n with h0 | hpos
  · subst h0
    refine ⟨0, ?_, le_refl 0⟩
    unfold f32_of_u32
    simpa using roundF32_zero
  · have hx : (0 : ℚ) < n := by exact_mod_cast hpos
    rcases le_or_lt (Int.log 2 (n : ℚ)) 23 with h23 | h24
    · refine ⟨(n : ℤ), ?_, by positivity⟩
      unfold f32_of_u32
      rw [roundF32_eq_self hx (n * 2 ^ (23 - Int.log 2 (n : ℚ)).toNat)]
      · push_cast
        ring
      · push_cast
        rw [← zpow_natCast (2 : ℚ) (23 - Int.log 2 (n : ℚ)).toNat,
          mul_assoc, ← zpow_add₀ (by norm_num : (2 : ℚ) ≠ 0)]
        rw [show ((23 - Int.log 2 (n : ℚ)).toNat : ℤ) +
            (Int.log 2 (n : ℚ) - 23) = 0 by omega]
        norm_num
    · refine ⟨rne ((n : ℚ) / 2 ^ (Int.log 2 (n : ℚ) - 23)) *
        2 ^ (Int.log 2 (n : ℚ) - 23).toNat, ?_, ?_⟩
      · unfold f32_of_u32 roundF32
        rw [if_neg (not_le.mpr hx)]
        push_cast
        rw [← zpow_natCast (2 : ℚ) (Int.log 2 (n : ℚ) - 23).toNat]
        rw [show ((Int.log 2 (n : ℚ) - 23).toNat : ℤ) =
            Int.log 2 (n : ℚ) - 23 by omega]
      · apply mul_nonneg ?_ (by positivity)
        have h1 : (0 : ℤ) ≤ ⌊(n : ℚ) / 2 ^ (Int.log 2 (n : ℚ) - 23)⌋ :=
          Int.floor_nonneg.mpr (by positivity)
        have h2 := floor_le_rne ((n : ℚ) / 2 ^ (Int.log 2 (n : ℚ) - 23))
        omega

theorem f32_of_u32_eq_self {n : ℕ} (hn : n ≤ 2 ^ 24) : f32_of_u32 n = n := by
  rcases Nat.eq_zero_or_pos n with h0 | hpos
  · subst h0
    unfold f32_of_u32
    simpa using roundF32_zero
  · have hx : (0 : ℚ) < n := by exact_mod_cast hpos
    rcases le_or_lt (Int.log 2 (n : ℚ)) 23 with h23 | h24
    · unfold f32_of_u32
      rw [roundF32_eq_self hx (n * 2 ^ (23 - Int.log 2 (n : ℚ)).toNat)]
      push_cast
      rw [← zpow_natCast (2 : ℚ) (23 - Int.log 2 (n : ℚ)).toNat,
        mul_assoc, ← zpow_add₀ (by norm_num : (2 : ℚ) ≠ 0)]
      rw [show ((23 - Int.log 2 (n : ℚ)).toNat : ℤ) +
          (Int.log 2 (n : ℚ) - 23) = 0 by omega]
      norm_num
    · -- then 2^24 ≤ 2^log ≤ n ≤ 2^24, so n = 2^24
      have hle : ((2 : ℕ) : ℚ) ^ (24 : ℤ) ≤ n := by
        calc ((2 : ℕ) : ℚ) ^ (24 : ℤ) ≤ ((2 : ℕ) : ℚ) ^ (Int.log 2 (n : ℚ)) :=
              zpow_le_zpow_right₀ (by norm_num) (by omega)
          _ ≤ n := Int.zpow_log_le_self (by norm_num) hx
      have hn' : (2 : ℕ) ^ 24 ≤ n := by
        have : ((2 ^ 24 : ℕ) : ℚ) ≤ (n : ℚ) := by
          calc ((2 ^ 24 : ℕ) : ℚ) = ((2 : ℕ) : ℚ) ^ (24 : ℤ) := by push_cast; norm_num
            _ ≤ n := hle
        exact_mod_cast this
      have heq : n = 2 ^ 24 := le_antisymm hn hn'
      subst heq
      unfold f32_of_u32
      rw [roundF32_eq_self hx (2 ^ 23)]
      have hlog : Int.log 2 ((2 ^ 24 : ℕ) : ℚ) = 24 := by
        apply log2_eq_of_bracket <;> push_cast <;> norm_num
      rw [hlog]
      push_cast
      norm_num

theorem f32_round_intCast {k : ℤ} (hk : 0 ≤ k) : f32_round (k : ℚ) = (k : ℚ) := by
  unfold f32_round
  rw [if_pos (by exact_mod_cast hk)]
  have : ⌊(k : ℚ) + 1 / 2⌋ = k := by
    rw [add_comm, Int.floor_add_int]
    norm_num [Int.floor_eq_iff]
  rw [this]

theorem compute_scaled_dims_pos (ow oh mw mh : ℕ) (h1 : 0 < ow) (h2 : 0 < oh)
    (h3 : 0 < mw) (h4 : 0 < mh) :
    compute_scaled_dims ow oh mw mh =
      (u32_of_f32 (f32_max (f32_round (f32_mul (f32_of_u32 ow)
          (f32_min (f32_min (f32_div (f32_of_u32 mw) (f32_of_u32 ow))
            (f32_div (f32_of_u32 mh) (f32_of_u32 oh))) 1))) 1),
       u32_of_f32 (f32_max (f32_round (f32_mul (f32_of_u32 oh)
          (f32_min (f32_min (f32_div (f32_of_u32 mw) (f32_of_u32 ow))
            (f32_div (f32_of_u32 mh) (f32_of_u32 oh))) 1))) 1)) := by
  have hcond : ¬(mw = 0 ∨ mh = 0 ∨ ow = 0 ∨ oh = 0) := by omega
  unfold compute_scaled_dims
  rw [if_neg hcond]

/-- A common shape: the value fed to `as u32` is `max ⌊P + 1/2⌋ 1` for the
rounded product `P ≥ 0`. -/
theorem u32_round_max_eq {P : ℚ} (hP0 : 0 ≤ P) :
    u32_of_f32 (f32_max (f32_round P) 1) =
      min (max ⌊P + 1 / 2⌋ 1).toNat (2 ^ 32 - 1) := by
  have hround : f32_round P = ((⌊P + 1 / 2⌋ : ℤ) : ℚ) := by
    unfold f32_round
    rw [if_pos hP0]
  have hmax : f32_max (f32_round P) 1 = ((max ⌊P + 1 / 2⌋ 1 : ℤ) : ℚ) := by
    rw [hround]
    unfold f32_max
    push_cast
    ring_nf
  rw [hmax]
  unfold u32_of_f32
  rw [if_neg, Int.floor_intCast]
  push_neg
  have h1 : (1 : ℤ) ≤ max ⌊P + 1 / 2⌋ 1 := le_max_right _ _
  exact_mod_cast lt_of_lt_of_le zero_lt_one h1

theorem one_le_fit_component {P : ℚ} (hP0 : 0 ≤ P) :
    1 ≤ u32_of_f32 (f32_max (f32_round P) 1) := by
  rw [u32_round_max_eq hP0]
  have h1 : (1 : ℤ) ≤ max ⌊P + 1 / 2⌋ 1 := le_max_right _ _
  omega

theorem fit_P_le (o m : ℕ) (ho : 0 < o) (hm : 0 < m) {s : ℚ} (hs0 : 0 ≤ s)
    (hs : s ≤ f32_div (f32_of_u32 m) (f32_of_u32 o)) :
    f32_mul (f32_of_u32 o) s ≤ (m : ℚ) * (1 + 1 / 2 ^ 24) ^ 3 := by
  have hoQ : (0 : ℚ) < o := by exact_mod_cast ho
  have hmQ : (0 : ℚ) < m := by exact_mod_cast hm
  have ha : 0 < f32_of_u32 o := roundF32_pos hoQ
  have hb_le : f32_of_u32 m ≤ (m : ℚ) * (1 + 1 / 2 ^ 24) := roundF32_le_mul hmQ
  have hq : 0 < f32_of_u32 m / f32_of_u32 o := div_pos (roundF32_pos hmQ) ha
  have hsw : f32_div (f32_of_u32 m) (f32_of_u32 o) ≤
      f32_of_u32 m / f32_of_u32 o * (1 + 1 / 2 ^ 24) := roundF32_le_mul hq
  have has : f32_of_u32 o * s ≤ (m : ℚ) * (1 + 1 / 2 ^ 24) ^ 2 := by
    calc f32_of_u32 o * s
        ≤ f32_of_u32 o * (f32_of_u32 m / f32_of_u32 o * (1 + 1 / 2 ^ 24)) :=
          mul_le_mul_of_nonneg_left (le_trans hs hsw) (le_of_lt ha)
      _ = f32_of_u32 m * (1 + 1 / 2 ^ 24) := by
          field_simp
          ring
      _ ≤ (m : ℚ) * (1 + 1 / 2 ^ 24) * (1 + 1 / 2 ^ 24) :=
          mul_le_mul_of_nonneg_right hb_le (by norm_num)
      _ = (m : ℚ) * (1 + 1 / 2 ^ 24) ^ 2 := by ring
  rcases eq_or_lt_of_le (mul_nonneg (le_of_lt ha) hs0) with h0 | hpos2
  · unfold f32_mul
    rw [← h0, roundF32_zero]
    positivity
  · calc f32_mul (f32_of_u32 o) s
        ≤ f32_of_u32 o * s * (1 + 1 / 2 ^ 24) := roundF32_le_mul hpos2
      _ ≤ (m : ℚ) * (1 + 1 / 2 ^ 24) ^ 2 * (1 + 1 / 2 ^ 24) :=
          mul_le_mul_of_nonneg_right has (by norm_num)
      _ = (m : ℚ) * (1 + 1 / 2 ^ 24) ^ 3 := by ring

theorem fit_component_le (o m : ℕ) (ho : 0 < o) (hm : 0 < m) {s : ℚ}
    (hs0 : 0 ≤ s) (hs : s ≤ f32_div (f32_of_u32 m) (f32_of_u32 o)) :
    u32_of_f32 (f32_max (f32_round (f32_mul (f32_of_u32 o) s)) 1) ≤
        m + m / 2 ^ 22 + 1 ∧
      (m < 2 ^ 21 →
        u32_of_f32 (f32_max (f32_round (f32_mul (f32_of_u32 o) s)) 1) ≤ m) := by
  have hP := fit_P_le o m ho hm hs0 hs
  have hP0 : 0 ≤ f32_mul (f32_of_u32 o) s := roundF32_nonneg _
  have hcube : ((1 : ℚ) + 1 / 2 ^ 24) ^ 3 ≤ 1 + 1 / 2 ^ 22 := by norm_num
  have hP1 : f32_mul (f32_of_u32 o) s ≤ (m : ℚ) + (m : ℚ) * (1 / 2 ^ 22) := by
    calc f32_mul (f32_of_u32 o) s ≤ (m : ℚ) * (1 + 1 / 2 ^ 24) ^ 3 := hP
      _ ≤ (m : ℚ) * (1 + 1 / 2 ^ 22) :=
          mul_le_mul_of_nonneg_left hcube (by positivity)
      _ = (m : ℚ) + (m : ℚ) * (1 / 2 ^ 22) := by ring
  rw [u32_round_max_eq hP0]
  have hfd : ⌊(m : ℚ) * (1 / 2 ^ 22)⌋ = (m : ℤ) / 2 ^ 22 := by
    rw [show (m : ℚ) * (1 / 2 ^ 22) = ((m : ℤ) : ℚ) / ((2 ^ 22 : ℕ) : ℚ) by
      push_cast
      ring]
    exact Rat.floor_intCast_div_natCast (m : ℤ) (2 ^ 22)
  constructor
  · have h2 : f32_mul (f32_of_u32 o) s + 1 / 2 <
        (((m : ℤ) + (m : ℤ) / 2 ^ 22 + 2 : ℤ) : ℚ) := by
      have h5 := Int.lt_floor_add_one ((m : ℚ) * (1 / 2 ^ 22))
      rw [hfd] at h5
      push_cast at h5 ⊢
      linarith
    have h3 : ⌊f32_mul (f32_of_u32 o) s + 1 / 2⌋ <
        (m : ℤ) + (m : ℤ) / 2 ^ 22 + 2 := Int.floor_lt.mpr h2
    have h4 : ((m / 2 ^ 22 : ℕ) : ℤ) = (m : ℤ) / 2 ^ 22 := by omega
    omega
  · intro hm21
    have hsmall : f32_mul (f32_of_u32 o) s + 1 / 2 < (((m : ℤ) + 1 : ℤ) : ℚ) := by
      have hq : (m : ℚ) * (1 / 2 ^ 22) < 1 / 2 := by
        have : (m : ℚ) < 2 ^ 21 := by exact_mod_cast hm21
        rw [mul_one_div, div_lt_div_iff₀ (by norm_num) (by norm_num)]
        linarith
      push_cast
      linarith
    have h3 : ⌊f32_mul (f32_of_u32 o) s + 1 / 2⌋ < (m : ℤ) + 1 :=
      Int.floor_lt.mpr hsmall
    omega

/-- C3 (amended): the claimed bound `new_w ≤ max_w` is false of the `f32`
code for large inputs; what holds for all positive inputs is the bound up
to the accumulated `f32` rounding slack, `new_w ≤ max_w + max_w/2^22 + 1`
(and likewise for the height), and the original bound does hold whenever
the budget is below `2^21`, where half an ulp of the three roundings stays
under one half. -/
theorem claim_C3_dims_fit_within_slack (ow oh mw mh : ℕ) (h1 : 0 < ow)
    (h2 : 0 < oh) (h3 : 0 < mw) (h4 : 0 < mh) :
    ((compute_scaled_dims ow oh mw mh).1 ≤ mw + mw / 2 ^ 22 + 1 ∧
      (compute_scaled_dims ow oh mw mh).2 ≤ mh + mh / 2 ^ 22 + 1) ∧
      ((mw < 2 ^ 21 → (compute_scaled_dims ow oh mw mh).1 ≤ mw) ∧
        (mh < 2 ^ 21 → (compute_scaled_dims ow oh mw mh).2 ≤ mh)) := by
  rw [compute_scaled_dims_pos ow oh mw mh h1 h2 h3 h4]
  have hs0 : (0 : ℚ) ≤ f32_min (f32_min
      (f32_div (f32_of_u32 mw) (f32_of_u32 ow))
      (f32_div (f32_of_u32 mh) (f32_of_u32 oh))) 1 := by
    unfold f32_min
    exact le_min (le_min (roundF32_nonneg _) (roundF32_nonneg _)) zero_le_one
  have hsw : f32_min (f32_min (f32_div (f32_of_u32 mw) (f32_of_u32 ow))
      (f32_div (f32_of_u32 mh) (f32_of_u32 oh))) 1 ≤
        f32_div (f32_of_u32 mw) (f32_of_u32 ow) :=
    le_trans (min_le_left _ _) (min_le_left _ _)
  have hsh : f32_min (f32_min (f32_div (f32_of_u32 mw) (f32_of_u32 ow))
      (f32_div (f32_of_u32 mh) (f32_of_u32 oh))) 1 ≤
        f32_div (f32_of_u32 mh) (f32_of_u32 oh) :=
    le_trans (min_le_left _ _) (min_le_right _ _)
  obtain ⟨hw1, hw2⟩ := fit_component_le ow mw h1 h3 hs0 hsw
  obtain ⟨hh1, hh2⟩ := fit_component_le oh mh h2 h4 hs0 hsh
  exact ⟨⟨hw1, hh1⟩, hw2, hh2⟩

/-- Witness for the amended C3 at `orig = 100×50`, `max = 40×40`. -/
theorem claim_C3_witness :
    (0 < 100 ∧ 0 < 50 ∧ 0 < 40 ∧ 40 < 2 ^ 21) ∧
      (((compute_scaled_dims 100 50 40 40).1 ≤ 40 + 40 / 2 ^ 22 + 1 ∧
        (compute_scaled_dims 100 50 40 40).2 ≤ 40 + 40 / 2 ^ 22 + 1) ∧
      ((40 < 2 ^ 21 → (compute_scaled_dims 100 50 40 40).1 ≤ 40) ∧
        (40 < 2 ^ 21 → (compute_scaled_dims 100 50 40 40).2 ≤ 40))) :=
  ⟨⟨by decide, by decide, by decide, by decide⟩,
    claim_C3_dims_fit_within_slack 100 50 40 40 (by decide) (by decide)
      (by decide) (by decide)⟩

/-- C4 (amended): for `0 < orig_w ≤ max_w` and `0 < orig_h ≤ max_h` the
scale still clamps to exactly 1.0 (no upscaling), but the output is the
input after the `u32 → f32 → u32` round-trip (round to nearest, ties to
even, then the truncating saturating cast), which loses the low bits of
dimensions above `2^24`; it equals the input exactly whenever both
dimensions are at most `2^24`. -/
theorem claim_C4_no_upscaling_roundtrip (ow oh mw mh : ℕ) (h1 : 0 < ow)
    (h2 : 0 < oh) (hw : ow ≤ mw) (hh : oh ≤ mh) :
    compute_scaled_dims ow oh mw mh =
        (u32_of_f32 (f32_of_u32 ow), u32_of_f32 (f32_of_u32 oh)) ∧
      (ow ≤ 2 ^ 24 → oh ≤ 2 ^ 24 →
        compute_scaled_dims ow oh mw mh = (ow, oh)) := by
  have h3 : 0 < mw := lt_of_lt_of_le h1 hw
  have h4 : 0 < mh := lt_of_lt_of_le h2 hh
  have howQ : (0 : ℚ) < ow := by exact_mod_cast h1
  have hohQ : (0 : ℚ) < oh := by exact_mod_cast h2
  have hfow : (0 : ℚ) < f32_of_u32 ow := roundF32_pos howQ
  have hfoh : (0 : ℚ) < f32_of_u32 oh := roundF32_pos hohQ
  rw [compute_scaled_dims_pos ow oh mw mh h1 h2 h3 h4]
  have hsw1 : 1 ≤ f32_div (f32_of_u32 mw) (f32_of_u32 ow) := by
    apply roundF32_ge_one
    rw [le_div_iff₀ hfow, one_mul]
    exact roundF32_mono howQ (by exact_mod_cast hw)
  have hsh1 : 1 ≤ f32_div (f32_of_u32 mh) (f32_of_u32 oh) := by
    apply roundF32_ge_one
    rw [le_div_iff₀ hfoh, one_mul]
    exact roundF32_mono hohQ (by exact_mod_cast hh)
  have hscale : f32_min (f32_min (f32_div (f32_of_u32 mw) (f32_of_u32 ow))
      (f32_div (f32_of_u32 mh) (f32_of_u32 oh))) 1 = 1 := by
    unfold f32_min
    exact min_eq_right (le_min hsw1 hsh1)
  rw [hscale]
  have hmul_w : f32_mul (f32_of_u32 ow) 1 = f32_of_u32 ow := by
    unfold f32_mul f32_of_u32
    rw [mul_one]
    exact roundF32_idem howQ
  have hmul_h : f32_mul (f32_of_u32 oh) 1 = f32_of_u32 oh := by
    unfold f32_mul f32_of_u32
    rw [mul_one]
    exact roundF32_idem hohQ
  rw [hmul_w, hmul_h]
  obtain ⟨kw, hkw, hkw0⟩ := f32_of_u32_int ow
  obtain ⟨kh, hkh, hkh0⟩ := f32_of_u32_int oh
  have hrw : f32_round (f32_of_u32 ow) = f32_of_u32 ow := by
    rw [hkw]
    exact f32_round_intCast hkw0
  have hrh : f32_round (f32_of_u32 oh) = f32_of_u32 oh := by
    rw [hkh]
    exact f32_round_intCast hkh0
  have hmax_w : f32_max (f32_of_u32 ow) 1 = f32_of_u32 ow := by
    unfold f32_max
    exact max_eq_left (roundF32_ge_one (by exact_mod_cast h1))
  have hmax_h : f32_max (f32_of_u32 oh) 1 = f32_of_u32 oh := by
    unfold f32_max
    exact max_eq_left (roundF32_ge_one (by exact_mod_cast h2))
  rw [hrw, hrh, hmax_w, hmax_h]
  refine ⟨rfl, ?_⟩
  intro hw24 hh24
  rw [f32_of_u32_eq_self hw24, f32_of_u32_eq_self hh24]
  have hcast : ∀ n : ℕ, 0 < n → n ≤ 2 ^ 24 → u32_of_f32 (n : ℚ) = n := by
    intro n hn h24
    unfold u32_of_f32
    rw [if_neg (by push_neg; exact_mod_cast hn), Int.floor_natCast]
    have : (n : ℤ).toNat = n := Int.toNat_natCast n
    omega
  rw [hcast ow h1 hw24, hcast oh h2 hh24]

/-- Witness for the amended C4 at `orig = 10×7`, `max = 40×40`. -/
theorem claim_C4_witness :
    (0 < 10 ∧ 0 < 7 ∧ 10 ≤ 40 ∧ 7 ≤ 40 ∧ 10 ≤ 2 ^ 24 ∧ 7 ≤ 2 ^ 24) ∧
      (compute_scaled_dims 10 7 40 40 =
          (u32_of_f32 (f32_of_u32 10), u32_of_f32 (f32_of_u32 7)) ∧
        compute_scaled_dims 10 7 40 40 = (10, 7)) := by
  have h := claim_C4_no_upscaling_roundtrip 10 7 40 40 (by decide) (by decide)
    (by decide) (by decide)
  exact ⟨⟨by decide, by decide, by decide, by decide, by decide, by decide⟩,
    h.1, h.2 (by decide) (by decide)⟩

/-- C5: the Dimension Fitter returns `(0, 0)` whenever any argument is
zero, and for all-positive arguments both returned components are at
least 1. -/
theorem claim_C5_zero_and_min_one (ow oh mw mh : ℕ) :
    ((ow = 0 ∨ oh = 0 ∨ mw = 0 ∨ mh = 0) →
        compute_scaled_dims ow oh mw mh = (0, 0)) ∧
      (0 < ow → 0 < oh → 0 < mw → 0 < mh →
        1 ≤ (compute_scaled_dims ow oh mw mh).1 ∧
          1 ≤ (compute_scaled_dims ow oh mw mh).2) := by
  constructor
  · intro h
    have hcond : mw = 0 ∨ mh = 0 ∨ ow = 0 ∨ oh = 0 := by omega
    unfold compute_scaled_dims
    rw [if_pos hcond]
  · intro h1 h2 h3 h4
    rw [compute_scaled_dims_pos ow oh mw mh h1 h2 h3 h4]
    exact ⟨one_le_fit_component (roundF32_nonneg _),
      one_le_fit_component (roundF32_nonneg _)⟩

/-- Witness for C5: a zero argument at `(0, 5, 7, 9)` and positive
arguments at `(3, 5, 7, 9)`. -/
theorem claim_C5_witness :
    compute_scaled_dims 0 5 7 9 = (0, 0) ∧
      (1 ≤ (compute_scaled_dims 3 5 7 9).1 ∧
        1 ≤ (compute_scaled_dims 3 5 7 9).2) :=
  ⟨(claim_C5_zero_and_min_one 0 5 7 9).1 (by decide),
    (claim_C5_zero_and_min_one 3 5 7 9).2 (by decide) (by decide) (by decide)
      (by decide)⟩

theorem roundF32_one : roundF32 1 = 1 := by
  have h := f32_of_u32_eq_self (show (1 : ℕ) ≤ 2 ^ 24 by norm_num)
  unfold f32_of_u32 at h
  rwa [Nat.cast_one] at h

theorem f32_div_one_one : f32_div 1 1 = 1 := by
  unfold f32_div
  rw [show (1 : ℚ) / 1 = 1 by norm_num]
  exact roundF32_one

/-- Counterexample to C3 as stated: at
`(orig_w, orig_h, max_w, max_h) = (2147483648, 1, 1610612833, 1)` the
`u32 → f32` conversion rounds `max_w` up to `1610612864.0` (ulp 128 in
the binade `[2^30, 2^31)`), every later step is exact, and the function
returns `new_w = 1610612864 > max_w = 1610612833`. -/
theorem claim_C3_counterexample :
    compute_scaled_dims 2147483648 1 1610612833 1 = (1610612864, 1) ∧
      ¬((compute_scaled_dims 2147483648 1 1610612833 1).1 ≤ 1610612833 ∧
        (compute_scaled_dims 2147483648 1 1610612833 1).2 ≤ 1) := by
  have hA : f32_of_u32 2147483648 = 2147483648 := by
    unfold f32_of_u32
    push_cast
    exact roundF32_eval_self 2147483648 31 8388608 (by norm_num) (by norm_num)
      (by norm_num)
  have hB : f32_of_u32 1610612833 = 1610612864 := by
    unfold f32_of_u32
    push_cast
    rw [roundF32_eval_up 1610612833 30 12582912 (by norm_num) (by norm_num)
      ?hf ?hfr]
    · norm_num
    case hf =>
      rw [show ((2 : ℚ) ^ ((30 : ℤ) - 23)) = 128 by norm_num]
      rw [Int.floor_eq_iff] <;> norm_num
    case hfr =>
      rw [show ((2 : ℚ) ^ ((30 : ℤ) - 23)) = 128 by norm_num]
      norm_num
  have hC : f32_of_u32 1 = 1 := by
    unfold f32_of_u32
    push_cast
    exact roundF32_one
  have hdiv1 : f32_div (1610612864 : ℚ) 2147483648 = 12582913 / 16777216 := by
    unfold f32_div
    rw [show (1610612864 : ℚ) / 2147483648 = 12582913 / 16777216 by norm_num]
    exact roundF32_eval_self (12582913 / 16777216) (-1) 12582913 (by norm_num)
      (by norm_num) (by norm_num)
  have hmin1 : f32_min (12582913 / 16777216 : ℚ) 1 = 12582913 / 16777216 := by
    unfold f32_min
    exact min_eq_left (by norm_num)
  have hmulw : f32_mul (2147483648 : ℚ) (12582913 / 16777216) =
      1610612864 := by
    unfold f32_mul
    rw [show (2147483648 : ℚ) * (12582913 / 16777216) = 1610612864 by norm_num]
    exact roundF32_eval_self 1610612864 30 12582913 (by norm_num) (by norm_num)
      (by norm_num)
  have hmulh : f32_mul (1 : ℚ) (12582913 / 16777216) = 12582913 / 16777216 := by
    unfold f32_mul
    rw [one_mul]
    exact roundF32_eval_self (12582913 / 16777216) (-1) 12582913 (by norm_num)
      (by norm_num) (by norm_num)
  have hrnd1 : f32_round (1610612864 : ℚ) = 1610612864 := by
    have h := f32_round_intCast (show (0 : ℤ) ≤ 1610612864 by norm_num)
    push_cast at h
    exact h
  have hrnd2 : f32_round (12582913 / 16777216 : ℚ) = 1 := by
    unfold f32_round
    rw [if_pos (by norm_num)]
    rw [show ⌊(12582913 / 16777216 : ℚ) + 1 / 2⌋ = 1 by
      rw [Int.floor_eq_iff] <;> norm_num]
    norm_num
  have hmax1 : f32_max (1610612864 : ℚ) 1 = 1610612864 := by
    unfold f32_max
    exact max_eq_left (by norm_num)
  have hmax2 : f32_max (1 : ℚ) 1 = 1 := by
    unfold f32_max
    exact max_self 1
  have hu1 : u32_of_f32 (1610612864 : ℚ) = 1610612864 := by
    unfold u32_of_f32
    rw [if_neg (by norm_num)]
    rw [show (1610612864 : ℚ) = ((1610612864 : ℤ) : ℚ) by norm_num,
      Int.floor_intCast]
    rfl
  have hu2 : u32_of_f32 (1 : ℚ) = 1 := by
    unfold u32_of_f32
    rw [if_neg (by norm_num)]
    rw [show (1 : ℚ) = ((1 : ℤ) : ℚ) by norm_num, Int.floor_intCast]
    rfl
  have hmain : compute_scaled_dims 2147483648 1 1610612833 1 =
      (1610612864, 1) := by
    rw [compute_scaled_dims_pos 2147483648 1 1610612833 1 (by norm_num)
      (by norm_num) (by norm_num) (by norm_num)]
    rw [hA, hB, hC, hdiv1, f32_div_one_one, hmin1, hmin1, hmulw, hmulh,
      hrnd1, hrnd2, hmax1, hmax2, hu1, hu2]
  exact ⟨hmain, by rw [hmain]; decide⟩

/-- Counterexample to C4 as stated: at
`(orig_w, orig_h, max_w, max_h) = (16777217, 1, 20000000, 1)` we have
`0 < orig ≤ max` in both dimensions and the scale clamps to exactly 1.0,
but `16777217 as f32` is the tie between `2^24` and `2^24 + 2` and rounds
to even, `16777216.0`, so the code returns `(16777216, 1)`, not the
input. -/
theorem claim_C4_counterexample :
    ((0 : ℕ) < 16777217 ∧ (16777217 : ℕ) ≤ 20000000 ∧ (0 : ℕ) < 1 ∧
        (1 : ℕ) ≤ 1) ∧
      compute_scaled_dims 16777217 1 20000000 1 = (16777216, 1) ∧
      compute_scaled_dims 16777217 1 20000000 1 ≠ (16777217, 1) := by
  have hA : f32_of_u32 16777217 = 16777216 := by
    unfold f32_of_u32
    push_cast
    rw [roundF32_eval_tie_even 16777217 24 8388608 (by norm_num) (by norm_num)
      ?hf ?hfr ?hpar]
    · norm_num
    case hf =>
      rw [show ((2 : ℚ) ^ ((24 : ℤ) - 23)) = 2 by norm_num]
      rw [Int.floor_eq_iff] <;> norm_num
    case hfr =>
      rw [show ((2 : ℚ) ^ ((24 : ℤ) - 23)) = 2 by norm_num]
      norm_num
    case hpar => decide
  have hB : f32_of_u32 20000000 = 20000000 := by
    unfold f32_of_u32
    push_cast
    exact roundF32_eval_self 20000000 24 10000000 (by norm_num) (by norm_num)
      (by norm_num)
  have hC : f32_of_u32 1 = 1 := by
    unfold f32_of_u32
    push_cast
    exact roundF32_one
  have hdiv1 : f32_div (20000000 : ℚ) 16777216 = 78125 / 65536 := by
    unfold f32_div
    rw [show (20000000 : ℚ) / 16777216 = 78125 / 65536 by norm_num]
    exact roundF32_eval_self (78125 / 65536) 0 10000000 (by norm_num)
      (by norm_num) (by norm_num)
  have hmin1 : f32_min (78125 / 65536 : ℚ) 1 = 1 := by
    unfold f32_min
    exact min_eq_right (by norm_num)
  have hmin2 : f32_min (1 : ℚ) 1 = 1 := by
    unfold f32_min
    exact min_self 1
  have hmulw : f32_mul (16777216 : ℚ) 1 = 16777216 := by
    unfold f32_mul
    rw [mul_one]
    exact roundF32_eval_self 16777216 24 8388608 (by norm_num) (by norm_num)
      (by norm_num)
  have hmulh : f32_mul (1 : ℚ) 1 = 1 := by
    unfold f32_mul
    rw [mul_one]
    exact roundF32_one
  have hrnd1 : f32_round (16777216 : ℚ) = 16777216 := by
    have h := f32_round_intCast (show (0 : ℤ) ≤ 16777216 by norm_num)
    push_cast at h
    exact h
  have hrnd2 : f32_round (1 : ℚ) = 1 := by
    have h := f32_round_intCast (show (0 : ℤ) ≤ 1 by norm_num)
    push_cast at h
    exact h
  have hmax1 : f32_max (16777216 : ℚ) 1 = 16777216 := by
    unfold f32_max
    exact max_eq_left (by norm_num)
  have hmax2 : f32_max (1 : ℚ) 1 = 1 := by
    unfold f32_max
    exact max_self 1
  have hu1 : u32_of_f32 (16777216 : ℚ) = 16777216 := by
    unfold u32_of_f32
    rw [if_neg (by norm_num)]
    rw [show (16777216 : ℚ) = ((16777216 : ℤ) : ℚ) by norm_num,
      Int.floor_intCast]
    rfl
  have hu2 : u32_of_f32 (1 : ℚ) = 1 := by
    unfold u32_of_f32
    rw [if_neg (by norm_num)]
    rw [show (1 : ℚ) = ((1 : ℤ) : ℚ) by norm_num, Int.floor_intCast]
    rfl
  have hmain : compute_scaled_dims 16777217 1 20000000 1 = (16777216, 1) := by
    rw [compute_scaled_dims_pos 16777217 1 20000000 1 (by norm_num)
      (by norm_num) (by norm_num) (by norm_num)]
    rw [hA, hB, hC, hdiv1, f32_div_one_one, hmin1, hmin2, hmulw, hmulh,
      hrnd1, hrnd2, hmax1, hmax2, hu1, hu2]
  exact ⟨⟨by decide, by decide, by decide, by decide⟩, hmain,
    by rw [hmain]; decide⟩

/-! ### Rasterizer lemmas -/

theorem cellStep_r_sum (img : RgbaImage) (col row : ℕ) (acc : CellAcc)
    (sc sr : ℕ) :
    (cellStep img col row acc sc sr).r_sum = acc.r_sum +
      (if col * 2 + sc < img.width ∧ row * 4 + sr < img.height then
        (img.get_pixel (col * 2 + sc) (row * 4 + sr)).r else 0) := by
  by_cases h : col * 2 + sc < img.width ∧ row * 4 + sr < img.height
  · simp [cellStep, h]
  · simp [cellStep, h]

theorem cellStep_g_sum (img : RgbaImage) (col row : ℕ) (acc : CellAcc)
    (sc sr : ℕ) :
    (cellStep img col row acc sc sr).g_sum = acc.g_sum +
      (if col * 2 + sc < img.width ∧ row * 4 + sr < img.height then
        (img.get_pixel (col * 2 + sc) (row * 4 + sr)).g else 0) := by
  by_cases h : col * 2 + sc < img.width ∧ row * 4 + sr < img.height
  · simp [cellStep, h]
  · simp [cellStep, h]

theorem cellStep_b_sum (img : RgbaImage) (col row : ℕ) (acc : CellAcc)
    (sc sr : ℕ) :
    (cellStep img col row acc sc sr).b_sum = acc.b_sum +
      (if col * 2 + sc < img.width ∧ row * 4 + sr < img.height then
        (img.get_pixel (col * 2 + sc) (row * 4 + sr)).b else 0) := by
  by_cases h : col * 2 + sc < img.width ∧ row * 4 + sr < img.height
  · simp [cellStep, h]
  · simp [cellStep, h]

theorem cellStep_count (img : RgbaImage) (col row : ℕ) (acc : CellAcc)
    (sc sr : ℕ) :
    (cellStep img col row acc sc sr).count = acc.count +
      (if col * 2 + sc < img.width ∧ row * 4 + sr < img.height then 1 else 0) := by
  by_cases h : col * 2 + sc < img.width ∧ row * 4 + sr < img.height
  · simp [cellStep, h]
  · simp [cellStep, h]

theorem cellStep_dots_eq (img : RgbaImage) (col row : ℕ) (acc : CellAcc)
    (sc sr : ℕ) :
    (cellStep img col row acc sc sr).dots =
      if lit img (col * 2 + sc) (row * 4 + sr) then
        acc.dots ||| (1 <<< bit_index sc sr)
      else
        acc.dots := by
  by_cases h1 : col * 2 + sc < img.width ∧ row * 4 + sr < img.height
  · by_cases h2 : (img.get_pixel (col * 2 + sc) (row * 4 + sr)).a > 50 ∧
        luminance (img.get_pixel (col * 2 + sc) (row * 4 + sr)) > 20
    · have hl : lit img (col * 2 + sc) (row * 4 + sr) :=
        ⟨h1.1, h1.2, h2.1, h2.2⟩
      simp [cellStep, h1, h2, hl]
    · have hl : ¬lit img (col * 2 + sc) (row * 4 + sr) := by
        unfold lit
        tauto
      simp [cellStep, h1, h2, hl]
  · have hl : ¬lit img (col * 2 + sc) (row * 4 + sr) := by
      unfold lit
      tauto
    simp [cellStep, h1, hl]

theorem foldl_r_sum (img : RgbaImage) (col row : ℕ) (ps : List (ℕ × ℕ)) :
    ∀ acc : CellAcc,
      (ps.foldl (fun a p => cellStep img col row a p.1 p.2) acc).r_sum =
        acc.r_sum + ((blockSamplesOf img col row ps).map Rgba.r).sum := by
  induction ps with
  | nil => intro acc; simp [blockSamplesOf]
  | cons p ps ih =>
    intro acc
    simp only [List.foldl_cons]
    rw [ih, cellStep_r_sum]
    by_cases h : col * 2 + p.1 < img.width ∧ row * 4 + p.2 < img.height
    · simp only [blockSamplesOf, List.filterMap_cons, if_pos h, List.map_cons,
        List.sum_cons, if_pos h]
      omega
    · simp only [blockSamplesOf, List.filterMap_cons, if_neg h]
      omega

theorem foldl_g_sum (img : RgbaImage) (col row : ℕ) (ps : List (ℕ × ℕ)) :
    ∀ acc : CellAcc,
      (ps.foldl (fun a p => cellStep img col row a p.1 p.2) acc).g_sum =
        acc.g_sum + ((blockSamplesOf img col row ps).map Rgba.g).sum := by
  induction ps with
  | nil => intro acc; simp [blockSamplesOf]
  | cons p ps ih =>
    intro acc
    simp only [List.foldl_cons]
    rw [ih, cellStep_g_sum]
    by_cases h : col * 2 + p.1 < img.width ∧ row * 4 + p.2 < img.height
    · simp only [blockSamplesOf, List.filterMap_cons, if_pos h, List.map_cons,
        List.sum_cons, if_pos h]
      omega
    · simp only [blockSamplesOf, List.filterMap_cons, if_neg h]
      omega

theorem foldl_b_sum (img : RgbaImage) (col row : ℕ) (ps : List (ℕ × ℕ)) :
    ∀ acc : CellAcc,
      (ps.foldl (fun a p => cellStep img col row a p.1 p.2) acc).b_sum =
        acc.b_sum + ((blockSamplesOf img col row ps).map Rgba.b).sum := by
  induction ps with
  | nil => intro acc; simp [blockSamplesOf]
  | cons p ps ih =>
    intro acc
    simp only [List.foldl_cons]
    rw [ih, cellStep_b_sum]
    by_cases h : col * 2 + p.1 < img.width ∧ row * 4 + p.2 < img.height
    · simp only [blockSamplesOf, List.filterMap_cons, if_pos h, List.map_cons,
        List.sum_cons, if_pos h]
      omega
    · simp only [blockSamplesOf, List.filterMap_cons, if_neg h]
      omega

theorem foldl_count (img : RgbaImage) (col row : ℕ) (ps : List (ℕ × ℕ)) :
    ∀ acc : CellAcc,
      (ps.foldl (fun a p => cellStep img col row a p.1 p.2) acc).count =
        acc.count + (blockSamplesOf img col row ps).length := by
  induction ps with
  | nil => intro acc; simp [blockSamplesOf]
  | cons p ps ih =>
    intro acc
    simp only [List.foldl_cons]
    rw [ih, cellStep_count]
    by_cases h : col * 2 + p.1 < img.width ∧ row * 4 + p.2 < img.height
    · simp only [blockSamplesOf, List.filterMap_cons, if_pos h,
        List.length_cons, if_pos h]
      omega
    · simp only [blockSamplesOf, List.filterMap_cons, if_neg h]
      omega

theorem foldl_dots_testBit (img : RgbaImage) (col row : ℕ)
    (ps : List (ℕ × ℕ)) :
    ∀ (acc : CellAcc) (i : ℕ),
      ((ps.foldl (fun a p => cellStep img col row a p.1 p.2) acc).dots.testBit i) =
        (acc.dots.testBit i ||
          ps.any fun p =>
            decide (lit img (col * 2 + p.1) (row * 4 + p.2)) &&
              decide (bit_index p.1 p.2 = i)) := by
  induction ps with
  | nil => intro acc i; simp
  | cons p ps ih =>
    intro acc i
    simp only [List.foldl_cons, List.any_cons]
    rw [ih]
    by_cases hl : lit img (col * 2 + p.1) (row * 4 + p.2)
    · have hd : (cellStep img col row acc p.1 p.2).dots =
          acc.dots ||| (1 <<< bit_index p.1 p.2) := by
        rw [cellStep_dots_eq, if_pos hl]
      rw [hd]
      simp [Nat.testBit_or, Nat.one_shiftLeft, Nat.testBit_two_pow, hl,
        Bool.or_assoc]
    · have hd : (cellStep img col row acc p.1 p.2).dots = acc.dots := by
        rw [cellStep_dots_eq, if_neg hl]
      rw [hd]
      simp [hl, Bool.or_assoc]

theorem computeCell_dots_def (img : RgbaImage) (col row : ℕ) :
    (computeCell img col row).dots =
      (subPositions.foldl (fun a p => cellStep img col row a p.1 p.2)
        ⟨0, 0, 0, 0, 0⟩).dots := rfl

theorem computeCell_testBit (img : RgbaImage) (col row i : ℕ) (hi : i < 8) :
    ((computeCell img col row).dots.testBit i = true) ↔
      lit img (col * 2 + i / 4) (row * 4 + i % 4) := by
  rw [computeCell_dots_def, foldl_dots_testBit]
  interval_cases i <;> simp [subPositions, bit_index]

theorem ceil_q_div_four (n : ℕ) : ⌈(n : ℚ) / 4⌉₊ = (n + 3) / 4 := by
  apply le_antisymm
  · apply Nat.ceil_le.mpr
    rw [div_le_iff₀ (by norm_num)]
    have h : n ≤ ((n + 3) / 4) * 4 := by omega
    exact_mod_cast h
  · have h := Nat.le_ceil ((n : ℚ) / 4)
    rw [div_le_iff₀ (by norm_num)] at h
    have hn : n ≤ ⌈(n : ℚ) / 4⌉₊ * 4 := by exact_mod_cast h
    omega

theorem ceil_q_div_two (n : ℕ) : ⌈(n : ℚ) / 2⌉₊ = (n + 1) / 2 := by
  apply le_antisymm
  · apply Nat.ceil_le.mpr
    rw [div_le_iff₀ (by norm_num)]
    have h : n ≤ ((n + 1) / 2) * 2 := by omega
    exact_mod_cast h
  · have h := Nat.le_ceil ((n : ℚ) / 2)
    rw [div_le_iff₀ (by norm_num)] at h
    have hn : n ≤ ⌈(n : ℚ) / 2⌉₊ * 2 := by exact_mod_cast h
    omega

theorem raster_cell (img : RgbaImage) (row col : ℕ)
    (hrow : row < (img.height + 3) / 4) (hcol : col < (img.width + 1) / 2) :
    ((rgba_to_braille_colored img).getD row []).getD col ⟨0, 0, (0, 0, 0)⟩ =
      computeCell img col row := by
  unfold rgba_to_braille_colored
  simp [List.getD, List.getElem?_map, List.getElem?_range, hrow, hcol]

/-- A 2×4 fully opaque white test image. -/
def whiteImg : RgbaImage := ⟨2, 4, fun _ _ => ⟨255, 255, 255, 255⟩⟩

/-- C1: the rasterizer returns exactly `⌈h/4⌉` rows of exactly `⌈w/2⌉`
cells, and bit `i` (`i < 8`) of cell `(col, row)`'s dot mask is set iff
the corresponding sub-pixel — left column top-to-bottom for bits 0-3,
right column top-to-bottom for bits 4-7, i.e. pixel
`(2*col + i/4, 4*row + i%4)` — is in bounds, has alpha > 50 and BT.709
luminance > 20 (`lit`); out-of-bounds sub-pixels never set a bit. -/
theorem claim_C1_raster_grid_and_dot_mask (img : RgbaImage) :
    (rgba_to_braille_colored img).length = ⌈(img.height : ℚ) / 4⌉₊ ∧
      (∀ line ∈ rgba_to_braille_colored img,
        line.length = ⌈(img.width : ℚ) / 2⌉₊) ∧
      (∀ row col i, row < (img.height + 3) / 4 → col < (img.width + 1) / 2 →
        i < 8 →
        ((((rgba_to_braille_colored img).getD row []).getD col
            ⟨0, 0, (0, 0, 0)⟩).dots.testBit i = true ↔
          lit img (col * 2 + i / 4) (row * 4 + i % 4))) := by
  refine ⟨?_, ?_, ?_⟩
  · rw [ceil_q_div_four]
    simp [rgba_to_braille_colored]
  · intro line hline
    rw [ceil_q_div_two]
    unfold rgba_to_braille_colored at hline
    simp only [List.mem_map, List.mem_range] at hline
    obtain ⟨r, _, hr⟩ := hline
    rw [← hr]
    simp
  · intro row col i hrow hcol hi
    rw [raster_cell img row col hrow hcol]
    exact computeCell_testBit img col row i hi

/-- Witness for C1 on the 2×4 white image at cell `(0, 0)`, bit 0. -/
theorem claim_C1_witness :
    (0 < (whiteImg.height + 3) / 4 ∧ 0 < (whiteImg.width + 1) / 2 ∧
        (0 : ℕ) < 8) ∧
      ((((rgba_to_braille_colored whiteImg).getD 0 []).getD 0
          ⟨0, 0, (0, 0, 0)⟩).dots.testBit 0 = true ↔
        lit whiteImg (0 * 2 + 0 / 4) (0 * 4 + 0 % 4)) :=
  ⟨⟨by decide, by decide, by decide⟩,
    (claim_C1_raster_grid_and_dot_mask whiteImg).2.2 0 0 0 (by decide)
      (by decide) (by decide)⟩

theorem computeCell_color_def (img : RgbaImage) (col row : ℕ) :
    (computeCell img col row).color =
      if (subPositions.foldl (fun a p => cellStep img col row a p.1 p.2)
          ⟨0, 0, 0, 0, 0⟩).count > 0 then
        (((subPositions.foldl (fun a p => cellStep img col row a p.1 p.2)
            ⟨0, 0, 0, 0, 0⟩).r_sum /
          (subPositions.foldl (fun a p => cellStep img col row a p.1 p.2)
            ⟨0, 0, 0, 0, 0⟩).count) % 256,
         ((subPositions.foldl (fun a p => cellStep img col row a p.1 p.2)
            ⟨0, 0, 0, 0, 0⟩).g_sum /
          (subPositions.foldl (fun a p => cellStep img col row a p.1 p.2)
            ⟨0, 0, 0, 0, 0⟩).count) % 256,
         ((subPositions.foldl (fun a p => cellStep img col row a p.1 p.2)
            ⟨0, 0, 0, 0, 0⟩).b_sum /
          (subPositions.foldl (fun a p => cellStep img col row a p.1 p.2)
            ⟨0, 0, 0, 0, 0⟩).count) % 256)
      else
        (0, 0, 0) := rfl

theorem blockSamples_bytes (img : RgbaImage) (hb : img.Bytes) (col row : ℕ) :
    ∀ p ∈ blockSamples img col row, p.r ≤ 255 ∧ p.g ≤ 255 ∧ p.b ≤ 255 := by
  intro p hp
  unfold blockSamples blockSamplesOf at hp
  simp only [List.mem_filterMap] at hp
  obtain ⟨q, _, hqe⟩ := hp
  by_cases hin : col * 2 + q.1 < img.width ∧ row * 4 + q.2 < img.height
  · rw [if_pos hin] at hqe
    obtain ⟨h1, h2, h3, _⟩ := hb _ _ hin.1 hin.2
    rw [Option.some_inj] at hqe
    rw [← hqe]
    exact ⟨h1, h2, h3⟩
  · rw [if_neg hin] at hqe
    exact absurd hqe (Option.noConfusion)

theorem mean_lt_256 (l : List ℕ) (hpos : 0 < l.length)
    (hle : ∀ x ∈ l, x ≤ 255) : l.sum / l.length < 256 := by
  rw [Nat.div_lt_iff_lt_mul hpos]
  have h := List.sum_le_card_nsmul l 255 hle
  simp only [smul_eq_mul] at h
  omega

/-- C2: the colour of every cell produced by the rasterizer is the
per-channel integer-truncated mean of exactly the in-bounds sub-pixels of
its 2×4 block — accumulated for every in-bounds sub-pixel whether or not
its dot bit was set — and black when the in-bounds sample count is zero. -/
theorem claim_C2_cell_color_mean (img : RgbaImage) (hb : img.Bytes)
    (row col : ℕ) (hrow : row < (img.height + 3) / 4)
    (hcol : col < (img.width + 1) / 2) :
    (((rgba_to_braille_colored img).getD row []).getD col
        ⟨0, 0, (0, 0, 0)⟩).color =
      if (blockSamples img col row).length = 0 then
        (0, 0, 0)
      else
        (((blockSamples img col row).map Rgba.r).sum /
            (blockSamples img col row).length,
          ((blockSamples img col row).map Rgba.g).sum /
            (blockSamples img col row).length,
          ((blockSamples img col row).map Rgba.b).sum /
            (blockSamples img col row).length) := by
  rw [raster_cell img row col hrow hcol, computeCell_color_def]
  have hc : (subPositions.foldl (fun a p => cellStep img col row a p.1 p.2)
      ⟨0, 0, 0, 0, 0⟩).count = (blockSamples img col row).length := by
    rw [foldl_count]
    simp [blockSamples]
  have hrs : (subPositions.foldl (fun a p => cellStep img col row a p.1 p.2)
      ⟨0, 0, 0, 0, 0⟩).r_sum = ((blockSamples img col row).map Rgba.r).sum := by
    rw [foldl_r_sum]
    simp [blockSamples]
  have hgs : (subPositions.foldl (fun a p => cellStep img col row a p.1 p.2)
      ⟨0, 0, 0, 0, 0⟩).g_sum = ((blockSamples img col row).map Rgba.g).sum := by
    rw [foldl_g_sum]
    simp [blockSamples]
  have hbs : (subPositions.foldl (fun a p => cellStep img col row a p.1 p.2)
      ⟨0, 0, 0, 0, 0⟩).b_sum = ((blockSamples img col row).map Rgba.b).sum := by
    rw [foldl_b_sum]
    simp [blockSamples]
  rw [hc, hrs, hgs, hbs]
  by_cases h0 : (blockSamples img col row).length = 0
  · simp [h0]
  · have hpos : 0 < (blockSamples img col row).length := Nat.pos_of_ne_zero h0
    rw [if_pos hpos, if_neg h0]
    have hbnd := blockSamples_bytes img hb col row
    have hr : ((blockSamples img col row).map Rgba.r).sum /
        (blockSamples img col row).length < 256 := by
      have := mean_lt_256 ((blockSamples img col row).map Rgba.r)
        (by simpa using hpos) ?_
      · simpa using this
      · intro x hx
        simp only [List.mem_map] at hx
        obtain ⟨p, hp, hpe⟩ := hx
        rw [← hpe]
        exact (hbnd p hp).1
    have hg : ((blockSamples img col row).map Rgba.g).sum /
        (blockSamples img col row).length < 256 := by
      have := mean_lt_256 ((blockSamples img col row).map Rgba.g)
        (by simpa using hpos) ?_
      · simpa using this
      · intro x hx
        simp only [List.mem_map] at hx
        obtain ⟨p, hp, hpe⟩ := hx
        rw [← hpe]
        exact (hbnd p hp).2.1
    have hb' : ((blockSamples img col row).map Rgba.b).sum /
        (blockSamples img col row).length < 256 := by
      have := mean_lt_256 ((blockSamples img col row).map Rgba.b)
        (by simpa using hpos) ?_
      · simpa using this
      · intro x hx
        simp only [List.mem_map] at hx
        obtain ⟨p, hp, hpe⟩ := hx
        rw [← hpe]
        exact (hbnd p hp).2.2
    rw [Nat.mod_eq_of_lt hr, Nat.mod_eq_of_lt hg, Nat.mod_eq_of_lt hb']

/-- Witness for C2 on the 2×4 white image at cell `(0, 0)`. -/
theorem claim_C2_witness :
    whiteImg.Bytes ∧ 0 < (whiteImg.height + 3) / 4 ∧
        0 < (whiteImg.width + 1) / 2 ∧
      (((rgba_to_braille_colored whiteImg).getD 0 []).getD 0
          ⟨0, 0, (0, 0, 0)⟩).color =
        (if (blockSamples whiteImg 0 0).length = 0 then
          (0, 0, 0)
        else
          (((blockSamples whiteImg 0 0).map Rgba.r).sum /
              (blockSamples whiteImg 0 0).length,
            ((blockSamples whiteImg 0 0).map Rgba.g).sum /
              (blockSamples whiteImg 0 0).length,
            ((blockSamples whiteImg 0 0).map Rgba.b).sum /
              (blockSamples whiteImg 0 0).length)) :=
  ⟨by intro x y hx hy; exact ⟨le_refl 255, le_refl 255, le_refl 255, le_refl 255⟩,
    by decide, by decide,
    claim_C2_cell_color_mean whiteImg
      (by intro x y hx hy; exact ⟨le_refl 255, le_refl 255, le_refl 255, le_refl 255⟩)
      0 0 (by decide) (by decide)⟩

theorem bit_index_lt (sc sr : ℕ) : bit_index sc sr < 8 := by
  unfold bit_index
  split <;> omega

theorem foldl_dots_lt (img : RgbaImage) (col row : ℕ) (ps : List (ℕ × ℕ)) :
    ∀ acc : CellAcc, acc.dots < 256 →
      (ps.foldl (fun a p => cellStep img col row a p.1 p.2) acc).dots < 256 := by
  induction ps with
  | nil => intro acc h; simpa using h
  | cons p ps ih =>
    intro acc h
    simp only [List.foldl_cons]
    apply ih
    rw [cellStep_dots_eq]
    by_cases hl : lit img (col * 2 + p.1) (row * 4 + p.2)
    · rw [if_pos hl]
      have h8 : (1 <<< bit_index p.1 p.2) < 256 := by
        rw [Nat.one_shiftLeft]
        calc 2 ^ bit_index p.1 p.2 < 2 ^ 8 :=
              Nat.pow_lt_pow_right (by norm_num) (bit_index_lt p.1 p.2)
          _ = 256 := by norm_num
      have := Nat.or_lt_two_pow (show acc.dots < 2 ^ 8 by omega)
        (show (1 <<< bit_index p.1 p.2) < 2 ^ 8 by omega)
      omega
    · rw [if_neg hl]
      exact h

theorem computeCell_dots_lt (img : RgbaImage) (col row : ℕ) :
    (computeCell img col row).dots < 256 := by
  rw [computeCell_dots_def]
  exact foldl_dots_lt img col row subPositions ⟨0, 0, 0, 0, 0⟩ (by norm_num)

theorem computeCell_glyph_def (img : RgbaImage) (col row : ℕ) :
    (computeCell img col row).glyph =
      (char_from_u32 (0x2800 + (computeCell img col row).dots)).getD 32 := rfl

/-- C6: every produced cell's glyph codepoint is exactly `0x2800` plus its
8-bit dot mask (mask 0 giving the blank braille glyph `U+2800`), and is
never the space character: the `unwrap_or(' ')` fallback is unreachable
because the mask is below 256 and every codepoint in `0x2800..0x28FF` is a
valid `char`. -/
theorem claim_C6_glyph_codepoint (img : RgbaImage) :
    ∀ line ∈ rgba_to_braille_colored img, ∀ cell ∈ line,
      char_from_u32 (0x2800 + cell.dots) = some (0x2800 + cell.dots) ∧
        cell.glyph = 0x2800 + cell.dots ∧ cell.glyph ≠ 32 := by
  intro line hline cell hcell
  unfold rgba_to_braille_colored at hline
  simp only [List.mem_map, List.mem_range] at hline
  obtain ⟨row, _, hrow⟩ := hline
  rw [← hrow] at hcell
  simp only [List.mem_map, List.mem_range] at hcell
  obtain ⟨col, _, hcol⟩ := hcell
  have hd : (computeCell img col row).dots < 256 := computeCell_dots_lt img col row
  have hvalid : char_from_u32 (0x2800 + (computeCell img col row).dots) =
      some (0x2800 + (computeCell img col row).dots) := by
    unfold char_from_u32
    rw [if_pos (Or.inl (by omega))]
  have hglyph : (computeCell img col row).glyph =
      0x2800 + (computeCell img col row).dots := by
    rw [computeCell_glyph_def, hvalid]
    rfl
  rw [← hcol]
  exact ⟨hvalid, hglyph, by omega⟩

/-- Witness for C6 at the single cell of the 2×4 white image. -/
theorem claim_C6_witness :
    (((rgba_to_braille_colored whiteImg).getD 0 []) ∈
        rgba_to_braille_colored whiteImg ∧
      (((rgba_to_braille_colored whiteImg).getD 0 []).getD 0
          ⟨0, 0, (0, 0, 0)⟩) ∈ ((rgba_to_braille_colored whiteImg).getD 0 [])) ∧
      (char_from_u32 (0x2800 +
          ((((rgba_to_braille_colored whiteImg).getD 0 []).getD 0
            ⟨0, 0, (0, 0, 0)⟩)).dots) =
        some (0x2800 +
          ((((rgba_to_braille_colored whiteImg).getD 0 []).getD 0
            ⟨0, 0, (0, 0, 0)⟩)).dots) ∧
        ((((rgba_to_braille_colored whiteImg).getD 0 []).getD 0
            ⟨0, 0, (0, 0, 0)⟩)).glyph =
          0x2800 + ((((rgba_to_braille_colored whiteImg).getD 0 []).getD 0
            ⟨0, 0, (0, 0, 0)⟩)).dots ∧
        ((((rgba_to_braille_colored whiteImg).getD 0 []).getD 0
            ⟨0, 0, (0, 0, 0)⟩)).glyph ≠ 32) := by
  have hlen1 : 0 < (rgba_to_braille_colored whiteImg).length := by
    simp [rgba_to_braille_colored, whiteImg]
  have hmem1 : ((rgba_to_braille_colored whiteImg).getD 0 []) ∈
      rgba_to_braille_colored whiteImg := by
    rw [List.getD_eq_getElem _ _ hlen1]
    exact List.getElem_mem hlen1
  have hlen2 : 0 < ((rgba_to_braille_colored whiteImg).getD 0 []).length := by
    simp [rgba_to_braille_colored, whiteImg, List.getElem?_range]
  have hmem2 : (((rgba_to_braille_colored whiteImg).getD 0 []).getD 0
      ⟨0, 0, (0, 0, 0)⟩) ∈ ((rgba_to_braille_colored whiteImg).getD 0 []) := by
    rw [List.getD_eq_getElem _ _ hlen2]
    exact List.getElem_mem hlen2
  exact ⟨⟨hmem1, hmem2⟩,
    claim_C6_glyph_codepoint whiteImg _ hmem1 _ hmem2⟩

/-! ### Frame Store lemmas -/

theorem foldl_skip_len {α β γ : Type} (g : α → Option γ) (f : α → γ → β)
    (F : List β → α → List β)
    (hF : ∀ out x, F out x =
      match g x with
      | none => out
      | some v => out ++ [f x v]) :
    ∀ (fs : List α) (acc : List β),
      (fs.foldl F acc).length =
        acc.length + (fs.filter fun x => (g x).isSome).length := by
  intro fs
  induction fs with
  | nil => intro acc; simp
  | cons x fs ih =>
    intro acc
    simp only [List.foldl_cons, List.filter_cons, hF]
    cases hg : g x with
    | none => simp [hg, ih]
    | some v =>
      simp only [hg]
      rw [ih]
      simp [hg]
      omega

theorem load_and_convert_gif_length (resize : RgbaImage → ℕ → ℕ → RgbaImage)
    (tc tr : ℕ) (fs : List RawFrame) :
    (load_and_convert_gif resize tc tr fs).length =
      (fs.filter fun f =>
        (RgbaImage.from_raw f.width f.height f.data).isSome).length := by
  simp only [load_and_convert_gif]
  refine (foldl_skip_len
    (fun f : RawFrame => RgbaImage.from_raw f.width f.height f.data)
    (fun f image =>
      (⟨rgba_to_braille_colored
        (if (compute_scaled_dims f.width f.height ((tc - 2) * 2)
              ((tr - 2) * 4)).1 > 0 ∧
            (compute_scaled_dims f.width f.height ((tc - 2) * 2)
              ((tr - 2) * 4)).2 > 0 then
          resize image
            (compute_scaled_dims f.width f.height ((tc - 2) * 2)
              ((tr - 2) * 4)).1
            (compute_scaled_dims f.width f.height ((tc - 2) * 2)
              ((tr - 2) * 4)).2
        else
          ⟨1, 1, fun _ _ => ⟨0, 0, 0, 0⟩⟩)⟩ : BrailleFrame)) _
    ?_ fs []).trans (by simp)
  intro out x
  cases hg : RgbaImage.from_raw x.width x.height x.data with
  | none => simp only [hg]
  | some v => simp only [hg]

/-- C7: the Frame Store has one entry per frame whose raster could be
rebuilt — hence length at most the decoder's frame count — and an empty
resulting store is reported by `main`'s explicit `frames.is_empty()` check
as a stderr diagnostic with exit status 1, not a panic. -/
theorem claim_C7_frame_store_length (resize : RgbaImage → ℕ → ℕ → RgbaImage)
    (tc tr : ℕ) (fs : List RawFrame) :
    (load_and_convert_gif resize tc tr fs).length =
        (fs.filter fun f =>
          (RgbaImage.from_raw f.width f.height f.data).isSome).length ∧
      (load_and_convert_gif resize tc tr fs).length ≤ fs.length ∧
      (load_and_convert_gif resize tc tr fs = [] →
        main_after_load (load_and_convert_gif resize tc tr fs) =
          some (1, "No frames found or failed to decode GIF.")) := by
  refine ⟨load_and_convert_gif_length resize tc tr fs, ?_, ?_⟩
  · rw [load_and_convert_gif_length resize tc tr fs]
    exact List.length_filter_le _ fs
  · intro hempty
    rw [hempty]
    rfl

/-- Witness for C7 on an empty decoded-frame list. -/
theorem claim_C7_witness :
    load_and_convert_gif (fun img _ _ => img) 80 24 [] = [] ∧
      main_after_load (load_and_convert_gif (fun img _ _ => img) 80 24 []) =
        some (1, "No frames found or failed to decode GIF.") :=
  ⟨rfl, (claim_C7_frame_store_length (fun img _ _ => img) 80 24 []).2.2 rfl⟩

/-! ### Playback Scheduler lemmas -/

/-- C9: a `'q'` key event received during the bounded wait makes `run_app`
return `Ok` immediately — the loop performs no further render and no frame
advance, whatever the elapsed time — while an event that is not the quit
key leaves the iteration exactly as if no event had been polled (frame
index and timer unaffected by the event itself). -/
theorem claim_C9_quit_key_and_ignored_events (frames : List BrailleFrame)
    (s : PlaybackState) (ev : Event) (now : ℕ)
    (rest : List (Option Event × ℕ))
    (hidx : s.frame_index < frames.length) :
    run_app frames s ((some (Event.key (KeyCode.char 'q')), now) :: rest) =
        some ⟨[s.frame_index], true, s⟩ ∧
      (isQuitEvent (some ev) = false →
        run_app frames s ((some ev, now) :: rest) =
          run_app frames s ((none, now) :: rest)) := by
  constructor
  · simp [run_app, hidx, isQuitEvent]
  · intro hnq
    simp [run_app, hidx, hnq,
      show isQuitEvent (none : Option Event) = false from rfl]

/-- Witness for C9 with a one-frame store, a non-key event, at time 0. -/
theorem claim_C9_witness :
    (0 < ([(⟨[]⟩ : BrailleFrame)]).length ∧
        isQuitEvent (some Event.nonKey) = false) ∧
      (run_app [(⟨[]⟩ : BrailleFrame)] ⟨0, 0⟩
          ((some (Event.key (KeyCode.char 'q')), 0) :: []) =
        some ⟨[0], true, ⟨0, 0⟩⟩ ∧
      run_app [(⟨[]⟩ : BrailleFrame)] ⟨0, 0⟩ ((some Event.nonKey, 0) :: []) =
        run_app [(⟨[]⟩ : BrailleFrame)] ⟨0, 0⟩ ((none, 0) :: [])) := by
  have h := claim_C9_quit_key_and_ignored_events [(⟨[]⟩ : BrailleFrame)]
    ⟨0, 0⟩ Event.nonKey 0 [] (by decide)
  exact ⟨⟨by decide, by decide⟩, h.1, h.2 (by decide)⟩

theorem quietInputs_succ (start k : ℕ) :
    quietInputs start (k + 1) =
      ((none : Option Event), start + frame_delay) ::
        quietInputs (start + frame_delay) k := by
  unfold quietInputs
  rw [List.range_succ_eq_map, List.map_cons, List.map_map]
  refine List.cons_eq_cons.mpr ⟨by simp, ?_⟩
  apply List.map_congr_left
  intro i _
  simp only [Function.comp_apply, Prod.mk.injEq, true_and, frame_delay]
  omega

theorem quiet_run (frames : List BrailleFrame) (hN : 0 < frames.length)
    (k : ℕ) :
    ∀ (idx start : ℕ), idx < frames.length →
      ∃ rs, run_app frames ⟨idx, start⟩ (quietInputs start k) =
        some ⟨rs, false,
          ⟨(idx + k) % frames.length, start + k * frame_delay⟩⟩ := by
  induction k with
  | zero =>
    intro idx start hidx
    refine ⟨[], ?_⟩
    simp [quietInputs, run_app, Nat.mod_eq_of_lt hidx]
  | succ k ih =>
    intro idx start hidx
    have hps : playback_step frames.length ⟨idx, start⟩ (start + frame_delay) =
        ⟨(idx + 1) % frames.length, start + frame_delay⟩ := by
      simp [playback_step, Nat.add_sub_cancel_left]
    obtain ⟨rs, hrs⟩ := ih ((idx + 1) % frames.length) (start + frame_delay)
      (Nat.mod_lt _ hN)
    refine ⟨idx :: rs, ?_⟩
    rw [quietInputs_succ]
    simp only [run_app, hidx, if_pos hidx,
      show isQuitEvent (none : Option Event) = false from rfl, Bool.false_eq_true,
      if_false, hps, hrs]
    have h1 : ((idx + 1) % frames.length + k) % frames.length =
        (idx + (k + 1)) % frames.length := by
      rw [Nat.mod_add_mod]
      congr 1
      omega
    have h2 : start + frame_delay + k * frame_delay =
        start + (k + 1) * frame_delay := by
      simp [frame_delay]
      omega
    rw [h1, h2]
    simp

/-- C8: whenever the elapsed time since the last advance has reached the
fixed `frame_delay`, the advance step moves the frame index forward by
exactly one modulo the store length and resets the timer to `now`;
consequently, starting at index 0 with no quit key pressed, after one full
interval the index is 1 (store length ≥ 2), and after `N` full intervals
(`N` = store length) the index wraps back to 0. -/
theorem claim_C8_fixed_interval_advance (frames : List BrailleFrame) :
    (∀ (s : PlaybackState) (now : ℕ), frame_delay ≤ now - s.frame_start →
        playback_step frames.length s now =
          ⟨(s.frame_index + 1) % frames.length, now⟩) ∧
      (2 ≤ frames.length →
        ∃ rs, run_app frames ⟨0, 0⟩ (quietInputs 0 1) =
          some ⟨rs, false, ⟨1, frame_delay⟩⟩) ∧
      (0 < frames.length →
        ∃ rs, run_app frames ⟨0, 0⟩ (quietInputs 0 frames.length) =
          some ⟨rs, false, ⟨0, frames.length * frame_delay⟩⟩) := by
  refine ⟨?_, ?_, ?_⟩
  · intro s now h
    unfold playback_step
    rw [if_pos h]
  · intro h2
    obtain ⟨rs, hrs⟩ := quiet_run frames (by omega) 1 0 0 (by omega)
    refine ⟨rs, ?_⟩
    rw [hrs]
    simp [Nat.mod_eq_of_lt h2]
  · intro h1
    obtain ⟨rs, hrs⟩ := quiet_run frames h1 frames.length 0 0 h1
    refine ⟨rs, ?_⟩
    rw [hrs]
    simp

/-- Witness for C8 with a two-frame store. -/
theorem claim_C8_witness :
    (frame_delay ≤ 96 - (0 : ℕ) ∧ 2 ≤ ([(⟨[]⟩ : BrailleFrame), ⟨[]⟩]).length ∧
        0 < ([(⟨[]⟩ : BrailleFrame), ⟨[]⟩]).length) ∧
      (playback_step ([(⟨[]⟩ : BrailleFrame), ⟨[]⟩]).length ⟨0, 0⟩ 96 =
          ⟨(0 + 1) % ([(⟨[]⟩ : BrailleFrame), ⟨[]⟩]).length, 96⟩ ∧
        (∃ rs, run_app [(⟨[]⟩ : BrailleFrame), ⟨[]⟩] ⟨0, 0⟩ (quietInputs 0 1) =
          some ⟨rs, false, ⟨1, frame_delay⟩⟩) ∧
        (∃ rs, run_app [(⟨[]⟩ : BrailleFrame), ⟨[]⟩] ⟨0, 0⟩
            (quietInputs 0 ([(⟨[]⟩ : BrailleFrame), ⟨[]⟩]).length) =
          some ⟨rs, false,
            ⟨0, ([(⟨[]⟩ : BrailleFrame), ⟨[]⟩]).length * frame_delay⟩⟩)) := by
  have h := claim_C8_fixed_interval_advance [(⟨[]⟩ : BrailleFrame), ⟨[]⟩]
  exact ⟨⟨by decide, by decide, by decide⟩,
    h.1 ⟨0, 0⟩ 96 (by decide), h.2.1 (by decide), h.2.2 (by decide)⟩

theorem run_app_total (frames : List BrailleFrame) (hN : 0 < frames.length)
    (inputs : List (Option Event × ℕ)) :
    ∀ s : PlaybackState, s.frame_index < frames.length →
      ∃ r : RunResult, run_app frames s inputs = some r ∧
        (∀ i ∈ r.rendered, i < frames.length) ∧
        r.final.frame_index < frames.length := by
  induction inputs with
  | nil =>
    intro s hs
    exact ⟨⟨[], false, s⟩, by simp [run_app], by simp, hs⟩
  | cons p rest ih =>
    intro s hs
    obtain ⟨ev, now⟩ := p
    by_cases hq : isQuitEvent ev = true
    · refine ⟨⟨[s.frame_index], true, s⟩, ?_, ?_, hs⟩
      · simp [run_app, hs, hq]
      · intro i hi
        simp only [List.mem_singleton] at hi
        omega
    · have hstep : (playback_step frames.length s now).frame_index <
          frames.length := by
        unfold playback_step
        split
        · exact Nat.mod_lt _ hN
        · exact hs
      obtain ⟨r, hr, hren, hfin⟩ := ih (playback_step frames.length s now) hstep
      refine ⟨⟨s.frame_index :: r.rendered, r.quit, r.final⟩, ?_, ?_, hfin⟩
      · simp only [run_app, if_pos hs, hq, Bool.false_eq_true, if_false, hr]
      · intro i hi
        rcases List.mem_cons.mp hi with h | h
        · omega
        · exact hren i h

/-- C10: with a non-empty frame slice and the initial index 0, every loop
iteration of `run_app` keeps the frame index strictly below the store
length — so `frames[frame_index]` is always in bounds and the `%`
divisor is never zero and the run never panics — whereas with an empty
slice the very first iteration's `frames[0]` lookup panics; the emptiness
check in `main` is what establishes the precondition. -/
theorem claim_C10_panic_freedom (frames : List BrailleFrame)
    (inputs : List (Option Event × ℕ)) :
    (frames ≠ [] →
        ∃ r : RunResult, run_app frames ⟨0, 0⟩ inputs = some r ∧
          (∀ i ∈ r.rendered, i < frames.length) ∧
          r.final.frame_index < frames.length) ∧
      (frames = [] → inputs ≠ [] → run_app frames ⟨0, 0⟩ inputs = none) := by
  constructor
  · intro hne
    exact run_app_total frames (List.length_pos.mpr hne) inputs ⟨0, 0⟩
      (List.length_pos.mpr hne)
  · intro hempty hne
    subst hempty
    match inputs with
    | [] => exact absurd rfl hne
    | (ev, now) :: rest => simp [run_app]

/-- Witness for C10: a one-frame store with one quiet iteration, and the
empty store with the same input. -/
theorem claim_C10_witness :
    (([(⟨[]⟩ : BrailleFrame)] ≠ []) ∧
        ([((none : Option Event), 0)] ≠ ([] : List (Option Event × ℕ))) ∧
      (∃ r : RunResult,
          run_app [(⟨[]⟩ : BrailleFrame)] ⟨0, 0⟩ [((none : Option Event), 0)] =
            some r ∧
          (∀ i ∈ r.rendered, i < ([(⟨[]⟩ : BrailleFrame)]).length) ∧
          r.final.frame_index < ([(⟨[]⟩ : BrailleFrame)]).length)) ∧
      run_app ([] : List BrailleFrame) ⟨0, 0⟩ [((none : Option Event), 0)] =
        none := by
  have h1 := (claim_C10_panic_freedom [(⟨[]⟩ : BrailleFrame)]
    [((none : Option Event), 0)]).1 (List.cons_ne_nil _ _)
  have h2 := (claim_C10_panic_freedom ([] : List BrailleFrame)
    [((none : Option Event), 0)]).2 rfl (List.cons_ne_nil _ _)
  exact ⟨⟨List.cons_ne_nil _ _, List.cons_ne_nil _ _, h1⟩, h2⟩
